import Mathlib

/-!
Verification of the swagger-mixin repository (package mixer plus its CLI).

The development shallowly embeds the Go source of mixer.go.  Go maps
(map[string]T) are modelled as association lists (SMap) iterated in list
order; Go map writes in Mixin only ever happen for keys checked absent, so
they are modelled by appending the new entry.  The parts of the go-openapi
document object model that the code reads or writes are carried over
field by field (operation identifiers, the seven method slots of a path
item, response descriptions and reference markers); value types the code
treats opaquely (definitions, top-level parameters) are type parameters.

Three embeddings appear:
* the main functional model (Mixin, FixEmptyResponseDescriptions, ...),
  which assumes the primary document's containers are non-nil;
* an N-model (NSwagger, MixinN, ...) in which every possibly-nil Go map or
  pointer is an Option and a nil-map write or nil dereference is a fault,
  modelled by returning none;
* an H-model (HSwagger, MixinH, ...) with an explicit operation store, in
  which path items hold pointers (store indices) to operations, capturing
  the pointer sharing of spec.PathItem.Get and friends in Go.
-/

/-- Association-list model of a Go map[string]α, iterated in list order. -/
abbrev SMap (α : Type) : Type := List (String × α)

/-- Go map read m[k]: the value stored at the first entry with key k. -/
def lookupS {α : Type} : SMap α → String → Option α
  | [], _ => none
  | (k', v) :: rest, k => if k' = k then some v else lookupS rest k

/-- Go comma-ok test: whether key k is present in the map. -/
def containsS {α : Type} (m : SMap α) (k : String) : Bool :=
  (lookupS m k).isSome

/-- The keys of a map, in entry order. -/
def keysOf {α : Type} (m : SMap α) : List String :=
  m.map (fun kv => kv.1)

/-- A swagger response: the description string and whether Ref.Ref.GetURL()
is non-nil (a reference/indirection marker).  Only these two fields are
ever read or written by the mixer. -/
structure Response where
  description : String
  hasRef : Bool
deriving DecidableEq

/-- A swagger responses object: optional default response (a possibly-nil
pointer in Go) plus status-code keyed responses. -/
structure Responses where
  default : Option Response
  statusCodeResponses : List (Nat × Response)
deriving DecidableEq

/-- A swagger operation: its operationId and its responses object.  The
main model assumes the Responses pointer is non-nil. -/
structure Operation where
  id : String
  responses : Responses
deriving DecidableEq

/-- A swagger path item: one optional operation per HTTP method. -/
structure PathItem where
  get : Option Operation
  put : Option Operation
  post : Option Operation
  delete : Option Operation
  options : Option Operation
  head : Option Operation
  patch : Option Operation
deriving DecidableEq

/-- A swagger document restricted to the four top-level collections the
mixer touches.  δ is the (opaque to the mixer) type of definition nodes,
π the type of top-level parameter nodes. -/
structure Swagger (δ π : Type) where
  definitions : SMap δ
  paths : SMap PathItem
  parameters : SMap π
  responses : SMap Response
deriving DecidableEq

/-- Go: opIds[x] = true.  The registry map[string]bool is modelled as the
list of keys ever set; membership is all the code reads. -/
def addId (reg : List String) (x : String) : List String :=
  if reg.contains x then reg else x :: reg

/-- Go appendOp: skip nil operations, append the rest. -/
def appendOp (ops : List Operation) : Option Operation → List Operation
  | none => ops
  | some op => ops ++ [op]

/-- Go pathItemOps: the operations of the six scanned methods, in source
order Get, Put, Post, Delete, Head, Patch.  Options is not included. -/
def pathItemOps (p : PathItem) : List Operation :=
  appendOp (appendOp (appendOp (appendOp (appendOp (appendOp [] p.get) p.put) p.post) p.delete) p.head) p.patch

/-- The inner loop of getOpIds: register the id of every operation. -/
def collectIds (reg : List String) : List Operation → List String
  | [] => reg
  | op :: rest => collectIds (addId reg op.id) rest

/-- List concatenation of f over a list (the nested range loops in Go). -/
def catMaps {α β : Type} (f : α → List β) : List α → List β
  | [] => []
  | a :: rest => f a ++ catMaps f rest

/-- Go getOpIds: every operationId reachable through pathItemOps from the
document's paths, as a registry.  Note it registers empty ids too. -/
def getOpIds {δ π : Type} (s : Swagger δ π) : List String :=
  collectIds [] (catMaps (fun kv => pathItemOps kv.2) s.paths)

/-- The body of the per-operation loop in Mixin: if the id is already
registered, append "Mixin<i>"; then register the (possibly new) id. -/
def renameOp1 (reg : List String) (i : Nat) (op : Operation) : List String × Operation :=
  if reg.contains op.id then
    let id' := op.id ++ "Mixin" ++ toString i
    (addId reg id', { op with id := id' })
  else
    (addId reg op.id, op)

/-- The per-operation loop lifted to a possibly-absent method slot. -/
def renameOp (reg : List String) (i : Nat) : Option Operation → List String × Option Operation
  | none => (reg, none)
  | some op => ((renameOp1 reg i op).1, some (renameOp1 reg i op).2)

/-- The operation loop of Mixin over one path item, in pathItemOps order
(Get, Put, Post, Delete, Head, Patch); Options is never visited. -/
def renamePathItem (reg : List String) (i : Nat) (p : PathItem) : List String × PathItem :=
  let g := renameOp reg i p.get
  let pu := renameOp g.1 i p.put
  let po := renameOp pu.1 i p.post
  let de := renameOp po.1 i p.delete
  let he := renameOp de.1 i p.head
  let pa := renameOp he.1 i p.patch
  (pa.1, { p with get := g.2, put := pu.2, post := po.2, delete := de.2, head := he.2, patch := pa.2 })

/-- The definitions / parameters / responses loop of Mixin: insert entries
whose key is absent, count and skip the rest.  The Go map write only
happens for absent keys and is modelled by appending the entry. -/
def mergeEntries {α : Type} (prim : SMap α) : SMap α → SMap α × Nat
  | [] => (prim, 0)
  | (k, v) :: rest =>
    if containsS prim k then
      let r := mergeEntries prim rest
      (r.1, r.2 + 1)
    else
      mergeEntries (prim ++ [(k, v)]) rest

/-- The paths loop of Mixin for mixin index i: skip and count colliding
path keys; otherwise run the operation-id disambiguation over the item
and insert it. -/
def mergePaths (reg : List String) (prim : SMap PathItem) (i : Nat) : SMap PathItem → List String × SMap PathItem × Nat
  | [] => (reg, prim, 0)
  | (k, v) :: rest =>
    if containsS prim k then
      let r := mergePaths reg prim i rest
      (r.1, r.2.1, r.2.2 + 1)
    else
      let rv := renamePathItem reg i v
      mergePaths rv.1 (prim ++ [(k, rv.2)]) i rest

/-- The outer mixin loop of Mixin: for each mixin, merge definitions,
paths (with id disambiguation), parameters and responses, accumulating
the skipped-entry count; i is the current mixin index. -/
def mixinLoop {δ π : Type} (i : Nat) (reg : List String) (P : Swagger δ π) : List (Swagger δ π) → Swagger δ π × Nat
  | [] => (P, 0)
  | m :: rest =>
    let d := mergeEntries P.definitions m.definitions
    let pa := mergePaths reg P.paths i m.paths
    let pr := mergeEntries P.parameters m.parameters
    let rs := mergeEntries P.responses m.responses
    let P' : Swagger δ π :=
      { definitions := d.1, paths := pa.2.1, parameters := pr.1, responses := rs.1 }
    let r := mixinLoop (i + 1) pa.1 P' rest
    (r.1, d.2 + pa.2.2 + pr.2 + rs.2 + r.2)

/-- Go Mixin: returns the merged primary and the number of skipped
entries.  The Go function mutates primary in place and returns the count;
the model returns both. -/
def Mixin {δ π : Type} (P : Swagger δ π) (ms : List (Swagger δ π)) : Swagger δ π × Nat :=
  mixinLoop 0 (getOpIds P) P ms

/-- Go FixEmptyDesc on a non-nil Response: substitute "(empty)" when the
description is empty and the response is not a reference. -/
def FixEmptyDesc (r : Response) : Response :=
  if r.description ≠ "" ∨ r.hasRef = true then r else { r with description := "(empty)" }

/-- Go FixEmptyDesc including its nil-pointer no-op branch. -/
def FixEmptyDescOpt : Option Response → Option Response
  | none => none
  | some r => some (FixEmptyDesc r)

/-- Go FixEmptyDescs on a non-nil Responses object: repair the default
response and every status-code response. -/
def FixEmptyDescs (rs : Responses) : Responses :=
  { default := FixEmptyDescOpt rs.default,
    statusCodeResponses := rs.statusCodeResponses.map (fun kv => (kv.1, FixEmptyDesc kv.2)) }

/-- Repair of one operation: FixEmptyDescs applied to its responses. -/
def fixOp (op : Operation) : Operation :=
  { op with responses := FixEmptyDescs op.responses }

/-- The per-path-item part of FixEmptyResponseDescriptions: repair every
present method's operation.  All seven methods, Options included. -/
def fixPathItem (p : PathItem) : PathItem :=
  { p with
    get := p.get.map fixOp,
    put := p.put.map fixOp,
    post := p.post.map fixOp,
    delete := p.delete.map fixOp,
    options := p.options.map fixOp,
    head := p.head.map fixOp,
    patch := p.patch.map fixOp }

/-- Go FixEmptyResponseDescriptions: repair every operation reachable from
paths and every entry of the top-level responses collection. -/
def FixEmptyResponseDescriptions {δ π : Type} (s : Swagger δ π) : Swagger δ π :=
  { s with
    paths := s.paths.map (fun kv => (kv.1, fixPathItem kv.2)),
    responses := s.responses.map (fun kv => (kv.1, FixEmptyDesc kv.2)) }

/-- The operations stored in an optional method slot (none or one). -/
def optList : Option Operation → List Operation
  | none => []
  | some op => [op]

/-- The operationIds of the six scanned methods of every path entry, with
multiplicity, in traversal order.  This is the multiset getOpIds draws
from. -/
def pathsIds (pm : SMap PathItem) : List String :=
  (catMaps (fun kv => pathItemOps kv.2) pm).map (fun op => op.id)

/-- The scanned operationIds of a document (six methods, Options
excluded), with multiplicity. -/
def scannedOpIds {δ π : Type} (s : Swagger δ π) : List String :=
  pathsIds s.paths

/-- Specification-side collision counter: how many keys of the stream are
already present when reached, entries being added to the seen set as the
stream is traversed. -/
def countDups (seen : List String) : List String → Nat
  | [] => 0
  | k :: ks => if seen.contains k then countDups seen ks + 1 else countDups (k :: seen) ks

/-- The seen set after traversing a key stream. -/
def seenPlus (seen : List String) : List String → List String
  | [] => seen
  | k :: ks => if seen.contains k then seenPlus seen ks else seenPlus (k :: seen) ks

/-- Erase the operationIds of the six renameable method slots of a path
item, for stating that merge keeps path items intact up to renaming. -/
def eraseOpId (op : Operation) : Operation :=
  { op with id := "" }

/-- A path item up to operation-identifier renaming. -/
def eraseIds (p : PathItem) : PathItem :=
  { p with
    get := p.get.map eraseOpId,
    put := p.put.map eraseOpId,
    post := p.post.map eraseOpId,
    delete := p.delete.map eraseOpId,
    head := p.head.map eraseOpId,
    patch := p.patch.map eraseOpId }

/-- The disambiguation loop over a list of operations, threading the
registry; renamePathItem is this loop run over pathItemOps of the item. -/
def renameOps (reg : List String) (i : Nat) : List Operation → List String × List Operation
  | [] => (reg, [])
  | op :: rest =>
    let r := renameOp1 reg i op
    let rr := renameOps r.1 i rest
    (rr.1, r.2 :: rr.2)

/-- The identifiers of a list of operations, in order. -/
def opsIds (l : List Operation) : List String :=
  l.map (fun op => op.id)

/-- The identifier produced by renaming x while merging mixin i. -/
def mixinSuffixed (x : String) (i : Nat) : String :=
  x ++ "Mixin" ++ toString i

/-- All seven method slots of a path item (reachability, as used by the
repair pass). -/
def pathItemAllOps (p : PathItem) : List Operation :=
  optList p.get ++ optList p.put ++ optList p.post ++ optList p.delete ++
    optList p.options ++ optList p.head ++ optList p.patch

/-- The responses stored in a responses object: the default one, if
present, and the status-code keyed ones. -/
def respsOf (rs : Responses) : List Response :=
  (match rs.default with | none => [] | some r => [r]) ++ rs.statusCodeResponses.map (fun kv => kv.2)

/-- Every response reachable from a document: through any of the seven
methods of any path entry, or stored in the top-level responses
collection. -/
def allResponses {δ π : Type} (s : Swagger δ π) : List Response :=
  catMaps (fun kv => catMaps (fun op => respsOf op.responses) (pathItemAllOps kv.2)) s.paths
    ++ s.responses.map (fun kv => kv.2)

/-- The external collaborators of MixinFiles: the loads.Spec loader, the
JSON marshaller, and the io.Writer sink, abstracted as fallible
functions.  write bs returns the chunks that actually reach the sink (an
io.Writer may emit a partial write before failing) together with the
write error, if any. -/
structure Env (δ π : Type) where
  load : String → Except String (Swagger δ π)
  marshal : Swagger δ π → Except String String
  write : String → List String × Option String

/-- The mixin-loading loop of MixinFiles: load each file in order,
aborting at the first failure. -/
def loadMixins {δ π : Type} (env : Env δ π) : List String → Except String (List (Swagger δ π))
  | [] => Except.ok []
  | f :: rest =>
    match env.load f with
    | Except.error e => Except.error e
    | Except.ok m =>
      match loadMixins env rest with
      | Except.error e => Except.error e
      | Except.ok ms => Except.ok (m :: ms)

/-- Go MixinFiles: load primary and mixins, merge, repair descriptions,
marshal, write.  The result pairs Go's (uint, error) return with the list
of strings written to the output sink (empty when nothing was written).
Load and marshal failures return the error with count 0 and write
nothing.  The write call mirrors the source's bare w.Write(bs): both of
its results, the chunks-written count and the error, are discarded, so a
write failure is not reported and whatever reached the sink stays. -/
def MixinFiles {δ π : Type} (env : Env δ π) (primaryFile : String) (mixinFiles : List String) :
    (Nat × Option String) × List String :=
  match env.load primaryFile with
  | Except.error e => ((0, some e), [])
  | Except.ok primary =>
    match loadMixins env mixinFiles with
    | Except.error e => ((0, some e), [])
    | Except.ok mixins =>
      let r := Mixin primary mixins
      let fixed := FixEmptyResponseDescriptions r.1
      match env.marshal fixed with
      | Except.error e => ((0, some e), [])
      | Except.ok bs => ((r.2, none), (env.write bs).1)

/-! ### N-model: nil maps and nil pointers made explicit

Go distinguishes nil maps (readable, not writable) and nil pointers from
empty ones.  The N-model wraps each possibly-nil container in Option; a
nil-map write or nil-pointer dereference is a fault, modelled as none. -/

/-- N-model operation: the Responses pointer may be nil. -/
structure NOperation where
  id : String
  responses : Option Responses
deriving DecidableEq

/-- N-model path item. -/
structure NPathItem where
  get : Option NOperation
  put : Option NOperation
  post : Option NOperation
  delete : Option NOperation
  options : Option NOperation
  head : Option NOperation
  patch : Option NOperation
deriving DecidableEq

/-- N-model document: each of the four collections may be a nil map. -/
structure NSwagger (δ π : Type) where
  definitions : Option (SMap δ)
  paths : Option (SMap NPathItem)
  parameters : Option (SMap π)
  responses : Option (SMap Response)
deriving DecidableEq

/-- Go read of a possibly-nil map: reading a nil map finds nothing. -/
def containsOpt {α : Type} : Option (SMap α) → String → Bool
  | none, _ => false
  | some m, k => containsS m k

/-- Go range over a possibly-nil map: a nil map iterates zero times. -/
def entriesOpt {α : Type} : Option (SMap α) → SMap α
  | none => []
  | some m => m

/-- N-model merge loop for definitions / parameters / responses.  Writing
an absent key into a nil primary map is the nil-map-write fault. -/
def mergeEntriesN {α : Type} (prim : Option (SMap α)) : SMap α → Option (Option (SMap α) × Nat)
  | [] => some (prim, 0)
  | (k, v) :: rest =>
    if containsOpt prim k then
      (mergeEntriesN prim rest).bind (fun r => some (r.1, r.2 + 1))
    else
      prim.bind (fun m => mergeEntriesN (some (m ++ [(k, v)])) rest)

/-- N-model per-operation disambiguation (never faults). -/
def renameOp1N (reg : List String) (i : Nat) (op : NOperation) : List String × NOperation :=
  if reg.contains op.id then
    let id' := op.id ++ "Mixin" ++ toString i
    (addId reg id', { op with id := id' })
  else
    (addId reg op.id, op)

/-- N-model disambiguation over a method slot. -/
def renameOpN (reg : List String) (i : Nat) : Option NOperation → List String × Option NOperation
  | none => (reg, none)
  | some op => ((renameOp1N reg i op).1, some (renameOp1N reg i op).2)

/-- N-model disambiguation over a path item (six scanned methods). -/
def renamePathItemN (reg : List String) (i : Nat) (p : NPathItem) : List String × NPathItem :=
  let g := renameOpN reg i p.get
  let pu := renameOpN g.1 i p.put
  let po := renameOpN pu.1 i p.post
  let de := renameOpN po.1 i p.delete
  let he := renameOpN de.1 i p.head
  let pa := renameOpN he.1 i p.patch
  (pa.1, { p with get := g.2, put := pu.2, post := po.2, delete := de.2, head := he.2, patch := pa.2 })

/-- N-model paths merge loop: writing a fresh key into a nil paths map is
the nil-map-write fault. -/
def mergePathsN (reg : List String) (prim : Option (SMap NPathItem)) (i : Nat) :
    SMap NPathItem → Option (List String × Option (SMap NPathItem) × Nat)
  | [] => some (reg, prim, 0)
  | (k, v) :: rest =>
    if containsOpt prim k then
      (mergePathsN reg prim i rest).bind (fun r => some (r.1, r.2.1, r.2.2 + 1))
    else
      let rv := renamePathItemN reg i v
      prim.bind (fun m => mergePathsN rv.1 (some (m ++ [(k, rv.2)])) i rest)

/-- N-model operations of the six scanned methods of a path item. -/
def pathItemOpsN (p : NPathItem) : List NOperation :=
  (match p.get with | none => [] | some op => [op]) ++
  (match p.put with | none => [] | some op => [op]) ++
  (match p.post with | none => [] | some op => [op]) ++
  (match p.delete with | none => [] | some op => [op]) ++
  (match p.head with | none => [] | some op => [op]) ++
  (match p.patch with | none => [] | some op => [op])

/-- N-model operations of all seven method slots of a path item
(reachability, as used by the repair pass). -/
def pathItemAllOpsN (p : NPathItem) : List NOperation :=
  (match p.get with | none => [] | some op => [op]) ++
  (match p.put with | none => [] | some op => [op]) ++
  (match p.post with | none => [] | some op => [op]) ++
  (match p.delete with | none => [] | some op => [op]) ++
  (match p.options with | none => [] | some op => [op]) ++
  (match p.head with | none => [] | some op => [op]) ++
  (match p.patch with | none => [] | some op => [op])

/-- N-model getOpIds; ranging over a nil paths map registers nothing. -/
def getOpIdsN {δ π : Type} (s : NSwagger δ π) : List String :=
  (catMaps (fun kv => pathItemOpsN kv.2) (entriesOpt s.paths)).foldl (fun reg op => addId reg op.id) []

/-- N-model outer mixin loop, propagating faults. -/
def mixinLoopN {δ π : Type} (i : Nat) (reg : List String) (P : NSwagger δ π) :
    List (NSwagger δ π) → Option (NSwagger δ π × Nat)
  | [] => some (P, 0)
  | m :: rest =>
    (mergeEntriesN P.definitions (entriesOpt m.definitions)).bind (fun d =>
      (mergePathsN reg P.paths i (entriesOpt m.paths)).bind (fun pa =>
        (mergeEntriesN P.parameters (entriesOpt m.parameters)).bind (fun pr =>
          (mergeEntriesN P.responses (entriesOpt m.responses)).bind (fun rs =>
            (mixinLoopN (i + 1) pa.1
              { definitions := d.1, paths := pa.2.1, parameters := pr.1,
                responses := rs.1 } rest).bind (fun r =>
              some (r.1, d.2 + pa.2.2 + pr.2 + rs.2 + r.2))))))

/-- N-model Mixin: none exactly when the Go code would fault. -/
def MixinN {δ π : Type} (P : NSwagger δ π) (ms : List (NSwagger δ π)) : Option (NSwagger δ π × Nat) :=
  mixinLoopN 0 (getOpIdsN P) P ms

/-- N-model FixEmptyDescs: called on a nil Responses pointer it
dereferences it, the nil-dereference fault. -/
def FixEmptyDescsN : Option Responses → Option Responses
  | none => none
  | some rs => some (FixEmptyDescs rs)

/-- N-model repair of one method slot: a present operation with a nil
Responses pointer faults. -/
def fixOpN : Option NOperation → Option (Option NOperation)
  | none => some none
  | some op =>
    (FixEmptyDescsN op.responses).bind (fun rs => some (some { op with responses := some rs }))

/-- N-model repair of a path item (all seven methods, Options included). -/
def fixPathItemN (p : NPathItem) : Option NPathItem :=
  (fixOpN p.get).bind (fun g =>
    (fixOpN p.put).bind (fun pu =>
      (fixOpN p.post).bind (fun po =>
        (fixOpN p.delete).bind (fun de =>
          (fixOpN p.options).bind (fun op =>
            (fixOpN p.head).bind (fun he =>
              (fixOpN p.patch).bind (fun pa =>
                some { p with
                       get := g, put := pu, post := po, delete := de,
                       options := op, head := he, patch := pa })))))))

/-- N-model repair loop over the path entries. -/
def fixPathsN : SMap NPathItem → Option (SMap NPathItem)
  | [] => some []
  | (k, v) :: rest =>
    (fixPathItemN v).bind (fun v' =>
      (fixPathsN rest).bind (fun rest' => some ((k, v') :: rest')))

/-- N-model FixEmptyResponseDescriptions: faults exactly when a present
operation has a nil Responses pointer; nil collections iterate empty. -/
def FixEmptyResponseDescriptionsN {δ π : Type} (s : NSwagger δ π) : Option (NSwagger δ π) :=
  (fixPathsN (entriesOpt s.paths)).bind (fun ps' =>
    some { s with
      paths := s.paths.map (fun _ => ps'),
      responses := s.responses.map (fun rs => rs.map (fun kv => (kv.1, FixEmptyDesc kv.2))) })

/-! ### H-model: operations behind pointers

spec.PathItem holds *Operation pointers and map values are copied
pointer-shallowly in Go, so the operations reached while merging a mixin
path item are the very operations of the mixin document.  The H-model
makes the heap explicit: a store of operations, path items holding store
indices. -/

/-- H-model operation record (only the id is ever written). -/
structure HOperation where
  id : String
deriving DecidableEq

/-- H-model path item: each method slot is a possibly-nil pointer into
the operation store. -/
structure HPathItem where
  get : Option Nat
  put : Option Nat
  post : Option Nat
  delete : Option Nat
  options : Option Nat
  head : Option Nat
  patch : Option Nat
deriving DecidableEq

/-- H-model document. -/
structure HSwagger (δ π : Type) where
  definitions : SMap δ
  paths : SMap HPathItem
  parameters : SMap π
  responses : SMap Response
deriving DecidableEq

/-- The per-operation loop of Mixin in the H-model: the rename writes the
operation record in the store, through the shared pointer. -/
def renameOp1H (st : List HOperation) (reg : List String) (i : Nat) (p : Nat) :
    List HOperation × List String :=
  match st[p]? with
  | none => (st, reg)
  | some op =>
    if reg.contains op.id then
      let id' := op.id ++ "Mixin" ++ toString i
      (st.set p ⟨id'⟩, addId reg id')
    else
      (st, addId reg op.id)

/-- H-model per-slot disambiguation: nil pointers are skipped. -/
def renameOpH (st : List HOperation) (reg : List String) (i : Nat) : Option Nat → List HOperation × List String
  | none => (st, reg)
  | some p => renameOp1H st reg i p

/-- H-model disambiguation over the six scanned slots of a path item; the
item itself (its pointers) is not changed. -/
def renamePathItemH (st : List HOperation) (reg : List String) (i : Nat) (p : HPathItem) :
    List HOperation × List String :=
  let g := renameOpH st reg i p.get
  let pu := renameOpH g.1 g.2 i p.put
  let po := renameOpH pu.1 pu.2 i p.post
  let de := renameOpH po.1 po.2 i p.delete
  let he := renameOpH de.1 de.2 i p.head
  let pa := renameOpH he.1 he.2 i p.patch
  (pa.1, pa.2)

/-- H-model paths merge loop: the inserted path item shares its operation
pointers with the mixin's. -/
def mergePathsH (st : List HOperation) (reg : List String) (prim : SMap HPathItem) (i : Nat) :
    SMap HPathItem → List HOperation × List String × SMap HPathItem × Nat
  | [] => (st, reg, prim, 0)
  | (k, v) :: rest =>
    if containsS prim k then
      let r := mergePathsH st reg prim i rest
      (r.1, r.2.1, r.2.2.1, r.2.2.2 + 1)
    else
      let rv := renamePathItemH st reg i v
      mergePathsH rv.1 rv.2 (prim ++ [(k, v)]) i rest

/-- H-model registry scan of the primary. -/
def getOpIdsH (st : List HOperation) {δ π : Type} (s : HSwagger δ π) : List String :=
  (catMaps (fun kv =>
      [kv.2.get, kv.2.put, kv.2.post, kv.2.delete, kv.2.head, kv.2.patch].filterMap
        (fun q => q.bind (fun p => st[p]?))) s.paths).foldl
    (fun reg op => addId reg op.id) []

/-- H-model outer mixin loop. -/
def mixinLoopH {δ π : Type} (st : List HOperation) (i : Nat) (reg : List String) (P : HSwagger δ π) :
    List (HSwagger δ π) → List HOperation × HSwagger δ π × Nat
  | [] => (st, P, 0)
  | m :: rest =>
    let d := mergeEntries P.definitions m.definitions
    let pa := mergePathsH st reg P.paths i m.paths
    let pr := mergeEntries P.parameters m.parameters
    let rs := mergeEntries P.responses m.responses
    let P' : HSwagger δ π :=
      { definitions := d.1, paths := pa.2.2.1, parameters := pr.1, responses := rs.1 }
    let r := mixinLoopH pa.1 (i + 1) pa.2.1 P' rest
    (r.1, r.2.1, d.2 + pa.2.2.2 + pr.2 + rs.2 + r.2.2)

/-- H-model Mixin: returns the final store, the merged primary and the
collision count. -/
def MixinH {δ π : Type} (st : List HOperation) (P : HSwagger δ π) (ms : List (HSwagger δ π)) :
    List HOperation × HSwagger δ π × Nat :=
  mixinLoopH st 0 (getOpIdsH st P) P ms

/-- The operations of a document reachable from its path items through
the store, over all seven method slots. -/
def reachableOpsH (st : List HOperation) {δ π : Type} (s : HSwagger δ π) : List HOperation :=
  catMaps (fun kv =>
      [kv.2.get, kv.2.put, kv.2.post, kv.2.delete, kv.2.options, kv.2.head, kv.2.patch].filterMap
        (fun q => q.bind (fun p => st[p]?))) s.paths

/-- Frame relation for the H-model store: same length, and every cell's
operation identifier is only ever extended (renames append a suffix,
nothing else is written). -/
def storeExtends (st st' : List HOperation) : Prop :=
  st'.length = st.length ∧
    ∀ (q : Nat) (op : HOperation), st[q]? = some op →
      ∃ op' : HOperation, st'[q]? = some op' ∧ ∃ t : String, op'.id = op.id ++ t

/-! ### Concrete documents used by witnesses and counterexamples -/

/-- An empty responses object. -/
def rsE : Responses := ⟨none, []⟩

/-- A path item with only a GET operation carrying the given id. -/
def itmG (s : String) : PathItem := ⟨some ⟨s, rsE⟩, none, none, none, none, none, none⟩

/-- A path item with only an OPTIONS operation carrying the given id and
one empty-description response. -/
def itmO (s : String) : PathItem :=
  ⟨none, none, none, none, some ⟨s, ⟨some ⟨"", false⟩, [(200, ⟨"", false⟩)]⟩⟩, none, none⟩

/-- Primary of the C4 scenario: path /a with operation getA. -/
def exP4 : Swagger Unit Unit := ⟨[], [("/a", itmG "getA")], [], []⟩

/-- Mixin of the C4 scenario: paths /a and /b, both with operation getA. -/
def exM4 : Swagger Unit Unit := ⟨[], [("/a", itmG "getA"), ("/b", itmG "getA")], [], []⟩

/-- Primary of the C3 counterexample: operations getA and getAMixin0. -/
def exP3 : Swagger Unit Unit := ⟨[], [("/a", itmG "getA"), ("/b", itmG "getAMixin0")], [], []⟩

/-- Mixin of the C3 counterexample: one operation getA, whose rename
collides with the primary's pre-existing getAMixin0. -/
def exM3 : Swagger Unit Unit := ⟨[], [("/c", itmG "getA")], [], []⟩

/-- Primary of the C6 counterexample: one operation with an empty id. -/
def exP6 : Swagger Unit Unit := ⟨[], [("/p", itmG "")], [], []⟩

/-- Mixin of the C6 counterexample: one operation with an empty id. -/
def exM6 : Swagger Unit Unit := ⟨[], [("/q", itmG "")], [], []⟩

/-- Primary with one definition entry, for the C1 witness. -/
def exP1 : Swagger Nat Nat := ⟨[("T", 0)], [], [], []⟩

/-- Mixin with definitions T (colliding) and U (fresh), for C1. -/
def exM1 : Swagger Nat Nat := ⟨[("T", 1), ("U", 2)], [], [], []⟩

/-- Primary for the C2 witness. -/
def exP2 : Swagger Nat Nat := ⟨[("A", 0)], [("/a", itmG "getA")], [("p", 5)], [("r", ⟨"d", false⟩)]⟩

/-- Mixin with keys disjoint from exP2, for C2. -/
def exM2 : Swagger Nat Nat := ⟨[("B", 1)], [("/b", itmG "getB")], [("q", 6)], [("s", ⟨"e", false⟩)]⟩

/-- Document with an OPTIONS-only path entry, for the C8 witness. -/
def exP8 : Swagger Unit Unit := ⟨[], [("/o", itmO "optId")], [], []⟩

/-- Environment whose loader always fails, for the C9 witness. -/
def exEnvBad : Env Unit Unit :=
  ⟨fun _ => Except.error "boom", fun _ => Except.error "x", fun bs => ([bs], none)⟩

/-- Environment whose loads and marshal succeed but whose write fails
after emitting a partial chunk, for the C9 counterexample. -/
def exEnvW : Env Unit Unit :=
  ⟨fun _ => Except.ok ⟨[], [], [], []⟩, fun _ => Except.ok "json",
   fun _ => (["par"], some "werr")⟩

/-- N-model primary with a nil definitions map, for the C10 witness. -/
def exNP : NSwagger Unit Unit := ⟨none, some [], some [], some []⟩

/-- N-model primary with all four maps non-nil, for the C10 witness. -/
def exNP2 : NSwagger Unit Unit := ⟨some [], some [], some [], some []⟩

/-- N-model mixin with a non-empty definitions collection, for C10. -/
def exNM : NSwagger Unit Unit := ⟨some [("T", ())], none, none, none⟩

/-- H-model store: two distinct operation records both named getA. -/
def exSt : List HOperation := [⟨"getA"⟩, ⟨"getA"⟩]

/-- H-model path item with only a GET pointer. -/
def hItmG (p : Nat) : HPathItem := ⟨some p, none, none, none, none, none, none⟩

/-- H-model primary of the C7 counterexample: /a points at store cell 0. -/
def exHP : HSwagger Unit Unit := ⟨[], [("/a", hItmG 0)], [], []⟩

/-- H-model mixin of the C7 counterexample: /b points at store cell 1. -/
def exHM : HSwagger Unit Unit := ⟨[], [("/b", hItmG 1)], [], []⟩

/-! ### Basic lemmas about the map model and helper functions -/

theorem lookupS_append_left {α : Type} {m : SMap α} {k : String} {v : α} (m' : SMap α)
    (h : lookupS m k = some v) : lookupS (m ++ m') k = some v := by
  induction m with
  | nil => simp [lookupS] at h
  | cons kv rest ih =>
    obtain ⟨k', v'⟩ := kv
    by_cases hk : k' = k
    · simp only [lookupS, List.cons_append, if_pos hk] at h ⊢
      exact h
    · simp only [lookupS, List.cons_append, if_neg hk] at h ⊢
      exact ih h

theorem containsS_append_left {α : Type} {m : SMap α} {k : String} (m' : SMap α)
    (h : containsS m k = true) : containsS (m ++ m') k = true := by
  unfold containsS at h ⊢
  obtain ⟨v, hv⟩ := Option.isSome_iff_exists.mp h
  rw [lookupS_append_left m' hv]
  rfl

theorem keysOf_append {α : Type} (m m' : SMap α) : keysOf (m ++ m') = keysOf m ++ keysOf m' := by
  simp [keysOf]

theorem containsS_iff_mem_keys {α : Type} (m : SMap α) (k : String) :
    containsS m k = true ↔ k ∈ keysOf m := by
  induction m with
  | nil => simp [containsS, lookupS, keysOf]
  | cons kv rest ih =>
    obtain ⟨k', v'⟩ := kv
    by_cases h : k' = k
    · simp [containsS, lookupS, keysOf, h]
    · simp only [containsS, lookupS, if_neg h, keysOf, List.map_cons, List.mem_cons]
      rw [containsS] at ih
      rw [ih]
      constructor
      · exact fun hm => Or.inr hm
      · rintro (hm | hm)
        · exact absurd hm.symm h
        · exact hm

theorem lookupS_isSome_of_mem {α : Type} {m : SMap α} {k : String} {v : α}
    (h : (k, v) ∈ m) : (lookupS m k).isSome := by
  have : k ∈ keysOf m := by
    simp only [keysOf, List.mem_map]
    exact ⟨(k, v), h, rfl⟩
  exact (containsS_iff_mem_keys m k).mpr this

theorem lookupS_of_mem_nodup {α : Type} {m : SMap α} {k : String} {v : α}
    (hnd : (keysOf m).Nodup) (h : (k, v) ∈ m) : lookupS m k = some v := by
  induction m with
  | nil => simp at h
  | cons kv rest ih =>
    obtain ⟨k', v'⟩ := kv
    simp only [keysOf, List.map_cons, List.nodup_cons] at hnd
    rcases List.mem_cons.mp h with heq | hmem
    · cases heq
      simp [lookupS]
    · have hk : k' ≠ k := by
        intro hkk
        apply hnd.1
        subst hkk
        simp only [keysOf, List.mem_map]
        exact ⟨(k', v), hmem, rfl⟩
      simp only [lookupS, if_neg hk]
      exact ih hnd.2 hmem

theorem lookupS_map_value {α β : Type} (f : α → β) (m : SMap α) (k : String) :
    lookupS (m.map (fun kv => (kv.1, f kv.2))) k = (lookupS m k).map f := by
  induction m with
  | nil => simp [lookupS]
  | cons kv rest ih =>
    obtain ⟨k', v'⟩ := kv
    by_cases h : k' = k
    · simp [lookupS, h]
    · simp [lookupS, h, ih]

theorem catMaps_append {α β : Type} (f : α → List β) (l l' : List α) :
    catMaps f (l ++ l') = catMaps f l ++ catMaps f l' := by
  induction l with
  | nil => simp [catMaps]
  | cons a rest ih => simp [catMaps, ih]

theorem mem_catMaps {α β : Type} (f : α → List β) (l : List α) (b : β) :
    b ∈ catMaps f l ↔ ∃ a ∈ l, b ∈ f a := by
  induction l with
  | nil => simp [catMaps]
  | cons a rest ih =>
    simp only [catMaps, List.mem_append, ih, List.mem_cons]
    constructor
    · rintro (h | ⟨a', ha', hb⟩)
      · exact ⟨a, Or.inl rfl, h⟩
      · exact ⟨a', Or.inr ha', hb⟩
    · rintro ⟨a', ha' | ha', hb⟩
      · exact Or.inl (ha' ▸ hb)
      · exact Or.inr ⟨a', ha', hb⟩

theorem catMaps_map {α β γ : Type} (f : β → List γ) (g : α → β) (l : List α) :
    catMaps f (l.map g) = catMaps (fun a => f (g a)) l := by
  induction l with
  | nil => simp [catMaps]
  | cons a rest ih => simp [catMaps, ih]

theorem map_catMaps {α β γ : Type} (h : β → γ) (f : α → List β) (l : List α) :
    (catMaps f l).map h = catMaps (fun a => (f a).map h) l := by
  induction l with
  | nil => simp [catMaps]
  | cons a rest ih => simp [catMaps, ih]

theorem mem_addId {reg : List String} {x y : String} :
    y ∈ addId reg x ↔ y = x ∨ y ∈ reg := by
  unfold addId
  split
  · rename_i h
    have hx : x ∈ reg := List.elem_iff.mp h
    constructor
    · exact fun hy => Or.inr hy
    · rintro (rfl | hy)
      · exact hx
      · exact hy
  · simp [List.mem_cons]

theorem contains_true_iff {l : List String} {x : String} : l.contains x = true ↔ x ∈ l :=
  List.elem_iff

/-! ### Collision-count bookkeeping lemmas -/

theorem countDups_congr {s1 s2 : List String} (l : List String)
    (h : ∀ x, x ∈ s1 ↔ x ∈ s2) : countDups s1 l = countDups s2 l := by
  induction l generalizing s1 s2 with
  | nil => rfl
  | cons k ks ih =>
    have hc : s1.contains k = s2.contains k := by
      by_cases hk : k ∈ s1
      · rw [contains_true_iff.mpr hk, (contains_true_iff.mpr ((h k).mp hk)).symm]
      · have hk2 : k ∉ s2 := fun hm => hk ((h k).mpr hm)
        have e1 : s1.contains k = false := by
          by_contra hcc
          exact hk (contains_true_iff.mp (Bool.of_not_eq_false hcc))
        have e2 : s2.contains k = false := by
          by_contra hcc
          exact hk2 (contains_true_iff.mp (Bool.of_not_eq_false hcc))
        rw [e1, e2]
    unfold countDups
    rw [hc]
    by_cases hk : s2.contains k = true
    · rw [if_pos hk, if_pos hk, ih h]
    · rw [if_neg hk, if_neg hk]
      apply ih
      intro x
      simp only [List.mem_cons]
      constructor
      · rintro (rfl | hx)
        · exact Or.inl rfl
        · exact Or.inr ((h x).mp hx)
      · rintro (rfl | hx)
        · exact Or.inl rfl
        · exact Or.inr ((h x).mpr hx)

theorem mem_seenPlus {s l : List String} {x : String} :
    x ∈ seenPlus s l ↔ x ∈ s ∨ x ∈ l := by
  induction l generalizing s with
  | nil => simp [seenPlus]
  | cons k ks ih =>
    unfold seenPlus
    by_cases hk : s.contains k = true
    · rw [if_pos hk, ih]
      simp only [List.mem_cons]
      constructor
      · rintro (hx | hx)
        · exact Or.inl hx
        · exact Or.inr (Or.inr hx)
      · rintro (hx | rfl | hx)
        · exact Or.inl hx
        · exact Or.inl (contains_true_iff.mp hk)
        · exact Or.inr hx
    · rw [if_neg hk, ih]
      simp only [List.mem_cons]
      tauto

theorem countDups_append (s l1 l2 : List String) :
    countDups s (l1 ++ l2) = countDups s l1 + countDups (seenPlus s l1) l2 := by
  induction l1 generalizing s with
  | nil => simp [countDups, seenPlus]
  | cons k ks ih =>
    simp only [List.cons_append, countDups, seenPlus, List.append_eq]
    by_cases hk : s.contains k = true
    · rw [if_pos hk, if_pos hk, if_pos hk, ih]
      omega
    · rw [if_neg hk, if_neg hk, if_neg hk, ih]

theorem bool_eq_false {b : Bool} (h : ¬b = true) : b = false := by
  cases b
  · rfl
  · exact absurd rfl h

theorem keys_contains_eq_containsS {α : Type} (m : SMap α) (k : String) :
    (keysOf m).contains k = containsS m k := by
  by_cases h : k ∈ keysOf m
  · rw [contains_true_iff.mpr h, (containsS_iff_mem_keys m k).mpr h]
  · have h1 : (keysOf m).contains k = false :=
      bool_eq_false (fun hc => h (contains_true_iff.mp hc))
    have h2 : containsS m k = false :=
      bool_eq_false (fun hc => h ((containsS_iff_mem_keys m k).mp hc))
    rw [h1, h2]

/-! ### mergeEntries specification lemmas -/

theorem mergeEntries_preserves {α : Type} (entries : SMap α) (prim : SMap α)
    {k : String} {v : α} (h : lookupS prim k = some v) :
    lookupS (mergeEntries prim entries).1 k = some v := by
  induction entries generalizing prim with
  | nil => exact h
  | cons kv rest ih =>
    obtain ⟨k', v'⟩ := kv
    unfold mergeEntries
    by_cases hc : containsS prim k' = true
    · rw [if_pos hc]
      exact ih prim h
    · rw [if_neg hc]
      exact ih (prim ++ [(k', v')]) (lookupS_append_left [(k', v')] h)

theorem mergeEntries_mem_keys {α : Type} (entries : SMap α) (prim : SMap α) (k : String) :
    k ∈ keysOf (mergeEntries prim entries).1 ↔ k ∈ keysOf prim ∨ k ∈ keysOf entries := by
  induction entries generalizing prim with
  | nil => simp [mergeEntries, keysOf]
  | cons kv rest ih =>
    obtain ⟨k', v'⟩ := kv
    unfold mergeEntries
    by_cases hc : containsS prim k' = true
    · rw [if_pos hc]
      show k ∈ keysOf (mergeEntries prim rest).1 ↔ _
      rw [ih]
      have hk' : k' ∈ keysOf prim := (containsS_iff_mem_keys prim k').mp hc
      show _ ↔ k ∈ keysOf prim ∨ k ∈ k' :: keysOf rest
      simp only [List.mem_cons]
      constructor
      · rintro (h | h)
        · exact Or.inl h
        · exact Or.inr (Or.inr h)
      · rintro (h | rfl | h)
        · exact Or.inl h
        · exact Or.inl hk'
        · exact Or.inr h
    · rw [if_neg hc]
      rw [ih]
      simp only [keysOf_append, keysOf, List.map_append, List.map_cons, List.map_nil,
        List.mem_append, List.mem_singleton, List.mem_cons]
      tauto

theorem mergeEntries_count {α : Type} (entries : SMap α) (prim : SMap α) :
    (mergeEntries prim entries).2 = countDups (keysOf prim) (keysOf entries) := by
  induction entries generalizing prim with
  | nil => rfl
  | cons kv rest ih =>
    obtain ⟨k', v'⟩ := kv
    unfold mergeEntries
    show _ = countDups (keysOf prim) (k' :: keysOf rest)
    simp only [countDups]
    rw [keys_contains_eq_containsS]
    by_cases hc : containsS prim k' = true
    · rw [if_pos hc, if_pos hc]
      show (mergeEntries prim rest).2 + 1 = _
      rw [ih]
    · have hcf : containsS prim k' = false := bool_eq_false hc
      rw [if_neg hc, hcf]
      simp only [Bool.false_eq_true, if_false]
      show (mergeEntries (prim ++ [(k', v')]) rest).2 = _
      rw [ih (prim ++ [(k', v')])]
      apply countDups_congr
      intro x
      simp only [keysOf_append, keysOf, List.map_append, List.map_cons, List.map_nil,
        List.mem_append, List.mem_singleton, List.mem_cons]
      tauto

/-! ### mergePaths specification lemmas (keys and count are unaffected by
the operation renaming that mergePaths performs on inserted values) -/

theorem mergePaths_preserves (entries : SMap PathItem) (reg : List String) (prim : SMap PathItem)
    (i : Nat) {k : String} {v : PathItem} (h : lookupS prim k = some v) :
    lookupS (mergePaths reg prim i entries).2.1 k = some v := by
  induction entries generalizing reg prim with
  | nil => exact h
  | cons kv rest ih =>
    obtain ⟨k', v'⟩ := kv
    unfold mergePaths
    by_cases hc : containsS prim k' = true
    · rw [if_pos hc]
      exact ih reg prim h
    · rw [if_neg hc]
      exact ih _ _ (lookupS_append_left _ h)

theorem mergePaths_mem_keys (entries : SMap PathItem) (reg : List String) (prim : SMap PathItem)
    (i : Nat) (k : String) :
    k ∈ keysOf (mergePaths reg prim i entries).2.1 ↔ k ∈ keysOf prim ∨ k ∈ keysOf entries := by
  induction entries generalizing reg prim with
  | nil => simp [mergePaths, keysOf]
  | cons kv rest ih =>
    obtain ⟨k', v'⟩ := kv
    unfold mergePaths
    by_cases hc : containsS prim k' = true
    · rw [if_pos hc]
      show k ∈ keysOf (mergePaths reg prim i rest).2.1 ↔ _
      rw [ih]
      have hk' : k' ∈ keysOf prim := (containsS_iff_mem_keys prim k').mp hc
      simp only [keysOf, List.map_cons, List.mem_cons]
      constructor
      · rintro (h | h)
        · exact Or.inl h
        · exact Or.inr (Or.inr h)
      · rintro (h | rfl | h)
        · exact Or.inl h
        · exact Or.inl hk'
        · exact Or.inr h
    · rw [if_neg hc]
      rw [ih]
      simp only [keysOf_append, keysOf, List.map_append, List.map_cons, List.map_nil,
        List.mem_append, List.mem_singleton, List.mem_cons]
      tauto

theorem mergePaths_count (entries : SMap PathItem) (reg : List String) (prim : SMap PathItem)
    (i : Nat) :
    (mergePaths reg prim i entries).2.2 = countDups (keysOf prim) (keysOf entries) := by
  induction entries generalizing reg prim with
  | nil => rfl
  | cons kv rest ih =>
    obtain ⟨k', v'⟩ := kv
    unfold mergePaths
    show _ = countDups (keysOf prim) (k' :: keysOf rest)
    simp only [countDups]
    rw [keys_contains_eq_containsS]
    by_cases hc : containsS prim k' = true
    · rw [if_pos hc, if_pos hc]
      show (mergePaths reg prim i rest).2.2 + 1 = _
      rw [ih]
    · have hcf : containsS prim k' = false := bool_eq_false hc
      rw [if_neg hc, hcf]
      simp only [Bool.false_eq_true, if_false]
      show (mergePaths (renamePathItem reg i v').1 (prim ++ [(k', (renamePathItem reg i v').2)]) i rest).2.2 = _
      rw [ih]
      apply countDups_congr
      intro x
      simp only [keysOf_append, keysOf, List.map_append, List.map_cons, List.map_nil,
        List.mem_append, List.mem_singleton, List.mem_cons]
      tauto

/-! ### The collision count and primary-preservation across the whole loop -/

theorem mixinLoop_count {δ π : Type} (ms : List (Swagger δ π)) (i : Nat) (reg : List String)
    (P : Swagger δ π) :
    (mixinLoop i reg P ms).2 =
      countDups (keysOf P.definitions) (catMaps (fun m => keysOf m.definitions) ms) +
      countDups (keysOf P.paths) (catMaps (fun m => keysOf m.paths) ms) +
      countDups (keysOf P.parameters) (catMaps (fun m => keysOf m.parameters) ms) +
      countDups (keysOf P.responses) (catMaps (fun m => keysOf m.responses) ms) := by
  induction ms generalizing i reg P with
  | nil => rfl
  | cons m rest ih =>
    show (mergeEntries P.definitions m.definitions).2 + (mergePaths reg P.paths i m.paths).2.2 +
        (mergeEntries P.parameters m.parameters).2 + (mergeEntries P.responses m.responses).2 +
        (mixinLoop (i + 1) (mergePaths reg P.paths i m.paths).1
          { definitions := (mergeEntries P.definitions m.definitions).1,
            paths := (mergePaths reg P.paths i m.paths).2.1,
            parameters := (mergeEntries P.parameters m.parameters).1,
            responses := (mergeEntries P.responses m.responses).1 } rest).2 = _
    rw [ih]
    dsimp only
    have cd : countDups (keysOf (mergeEntries P.definitions m.definitions).1)
        (catMaps (fun m => keysOf m.definitions) rest)
        = countDups (seenPlus (keysOf P.definitions) (keysOf m.definitions))
          (catMaps (fun m => keysOf m.definitions) rest) := by
      apply countDups_congr
      intro x
      rw [mergeEntries_mem_keys, mem_seenPlus]
    have cpa : countDups (keysOf (mergePaths reg P.paths i m.paths).2.1)
        (catMaps (fun m => keysOf m.paths) rest)
        = countDups (seenPlus (keysOf P.paths) (keysOf m.paths))
          (catMaps (fun m => keysOf m.paths) rest) := by
      apply countDups_congr
      intro x
      rw [mergePaths_mem_keys, mem_seenPlus]
    have cpr : countDups (keysOf (mergeEntries P.parameters m.parameters).1)
        (catMaps (fun m => keysOf m.parameters) rest)
        = countDups (seenPlus (keysOf P.parameters) (keysOf m.parameters))
          (catMaps (fun m => keysOf m.parameters) rest) := by
      apply countDups_congr
      intro x
      rw [mergeEntries_mem_keys, mem_seenPlus]
    have crs : countDups (keysOf (mergeEntries P.responses m.responses).1)
        (catMaps (fun m => keysOf m.responses) rest)
        = countDups (seenPlus (keysOf P.responses) (keysOf m.responses))
          (catMaps (fun m => keysOf m.responses) rest) := by
      apply countDups_congr
      intro x
      rw [mergeEntries_mem_keys, mem_seenPlus]
    rw [cd, cpa, cpr, crs, mergeEntries_count, mergePaths_count, mergeEntries_count,
      mergeEntries_count]
    simp only [catMaps, countDups_append]
    omega

theorem mixinLoop_preserves {δ π : Type} (ms : List (Swagger δ π)) (i : Nat) (reg : List String)
    (P : Swagger δ π) {k : String} :
    (∀ v, lookupS P.definitions k = some v → lookupS (mixinLoop i reg P ms).1.definitions k = some v) ∧
    (∀ v, lookupS P.paths k = some v → lookupS (mixinLoop i reg P ms).1.paths k = some v) ∧
    (∀ v, lookupS P.parameters k = some v → lookupS (mixinLoop i reg P ms).1.parameters k = some v) ∧
    (∀ v, lookupS P.responses k = some v → lookupS (mixinLoop i reg P ms).1.responses k = some v) := by
  induction ms generalizing i reg P with
  | nil => exact ⟨fun v h => h, fun v h => h, fun v h => h, fun v h => h⟩
  | cons m rest ih =>
    have step := ih (i + 1) (mergePaths reg P.paths i m.paths).1
      { definitions := (mergeEntries P.definitions m.definitions).1,
        paths := (mergePaths reg P.paths i m.paths).2.1,
        parameters := (mergeEntries P.parameters m.parameters).1,
        responses := (mergeEntries P.responses m.responses).1 }
    dsimp only at step
    exact ⟨fun v h => step.1 v (mergeEntries_preserves _ _ h),
      fun v h => step.2.1 v (mergePaths_preserves _ _ _ _ h),
      fun v h => step.2.2.1 v (mergeEntries_preserves _ _ h),
      fun v h => step.2.2.2 v (mergeEntries_preserves _ _ h)⟩

/-! ### Claim C1 -/

/-- Claim C1: Mixin returns the total number of skipped entries summed
across all four collections and all mixins; an entry is skipped exactly
when its key is already present in the primary, originally or from an
earlier-merged entry (countDups counts precisely those, growing its seen
set along the merged stream), and the primary's existing entry for a
colliding key is never overwritten. -/
theorem c1_collision_count_and_preservation {δ π : Type} (P : Swagger δ π)
    (ms : List (Swagger δ π)) :
    (Mixin P ms).2 =
      countDups (keysOf P.definitions) (catMaps (fun m => keysOf m.definitions) ms) +
      countDups (keysOf P.paths) (catMaps (fun m => keysOf m.paths) ms) +
      countDups (keysOf P.parameters) (catMaps (fun m => keysOf m.parameters) ms) +
      countDups (keysOf P.responses) (catMaps (fun m => keysOf m.responses) ms) ∧
    (∀ k v, lookupS P.definitions k = some v → lookupS (Mixin P ms).1.definitions k = some v) ∧
    (∀ k v, lookupS P.paths k = some v → lookupS (Mixin P ms).1.paths k = some v) ∧
    (∀ k v, lookupS P.parameters k = some v → lookupS (Mixin P ms).1.parameters k = some v) ∧
    (∀ k v, lookupS P.responses k = some v → lookupS (Mixin P ms).1.responses k = some v) := by
  refine ⟨mixinLoop_count ms 0 (getOpIds P) P, ?_, ?_, ?_, ?_⟩
  · exact fun k v h => (mixinLoop_preserves ms 0 (getOpIds P) P).1 v h
  · exact fun k v h => (mixinLoop_preserves ms 0 (getOpIds P) P).2.1 v h
  · exact fun k v h => (mixinLoop_preserves ms 0 (getOpIds P) P).2.2.1 v h
  · exact fun k v h => (mixinLoop_preserves ms 0 (getOpIds P) P).2.2.2 v h

/-- Witness for C1: at a concrete primary and mixin with one colliding
definition key, the count is 1 and the primary's entry survives. -/
theorem c1_collision_count_and_preservation_witness :
    (Mixin exP1 [exM1]).2 = 1 ∧ lookupS (Mixin exP1 [exM1]).1.definitions "T" = some 0 := by
  constructor
  · rw [(c1_collision_count_and_preservation exP1 [exM1]).1]
    decide
  · exact (c1_collision_count_and_preservation exP1 [exM1]).2.1 "T" 0 (by decide)

/-! ### Repair-pass lemmas (claim C5) -/

theorem fixEmptyDesc_idem (r : Response) : FixEmptyDesc (FixEmptyDesc r) = FixEmptyDesc r := by
  unfold FixEmptyDesc
  by_cases h : r.description ≠ "" ∨ r.hasRef = true
  · rw [if_pos h, if_pos h]
  · rw [if_neg h]
    have h2 : ({ r with description := "(empty)" } : Response).description ≠ "" ∨
        ({ r with description := "(empty)" } : Response).hasRef = true := by
      left
      show ("(empty)" : String) ≠ ""
      decide
    rw [if_pos h2]

theorem opt_map_idem {β : Type} (f : β → β) (hf : ∀ b, f (f b) = f b) (o : Option β) :
    (o.map f).map f = o.map f := by
  cases o <;> simp [hf]

theorem map_pair_idem {κ β : Type} (f : β → β) (hf : ∀ b, f (f b) = f b) (l : List (κ × β)) :
    (l.map (fun kv => (kv.1, f kv.2))).map (fun kv => (kv.1, f kv.2)) =
      l.map (fun kv => (kv.1, f kv.2)) := by
  induction l with
  | nil => rfl
  | cons kv rest ih => simp [hf, ih]

theorem fixEmptyDescOpt_idem (o : Option Response) :
    FixEmptyDescOpt (FixEmptyDescOpt o) = FixEmptyDescOpt o := by
  cases o <;> simp [FixEmptyDescOpt, fixEmptyDesc_idem]

theorem fixEmptyDescs_idem (rs : Responses) : FixEmptyDescs (FixEmptyDescs rs) = FixEmptyDescs rs := by
  unfold FixEmptyDescs
  dsimp only
  rw [fixEmptyDescOpt_idem, map_pair_idem FixEmptyDesc fixEmptyDesc_idem]

theorem fixOp_idem (op : Operation) : fixOp (fixOp op) = fixOp op := by
  unfold fixOp
  dsimp only
  rw [fixEmptyDescs_idem]

theorem fixPathItem_idem (p : PathItem) : fixPathItem (fixPathItem p) = fixPathItem p := by
  unfold fixPathItem
  dsimp only
  rw [opt_map_idem fixOp fixOp_idem, opt_map_idem fixOp fixOp_idem,
    opt_map_idem fixOp fixOp_idem, opt_map_idem fixOp fixOp_idem,
    opt_map_idem fixOp fixOp_idem, opt_map_idem fixOp fixOp_idem,
    opt_map_idem fixOp fixOp_idem]

theorem catMaps_congr {α β : Type} {f g : α → List β} (l : List α) (h : ∀ a ∈ l, f a = g a) :
    catMaps f l = catMaps g l := by
  induction l with
  | nil => rfl
  | cons a rest ih =>
    unfold catMaps
    rw [h a (List.mem_cons_self a rest), ih (fun a ha => h a (List.mem_cons_of_mem _ ha))]

theorem optList_map (f : Operation → Operation) (o : Option Operation) :
    optList (o.map f) = (optList o).map f := by
  cases o <;> rfl

theorem respsOf_fix (rs : Responses) : respsOf (FixEmptyDescs rs) = (respsOf rs).map FixEmptyDesc := by
  unfold respsOf FixEmptyDescs FixEmptyDescOpt
  cases rs.default <;> simp [List.map_map]

theorem pathItemAllOps_fix (p : PathItem) :
    pathItemAllOps (fixPathItem p) = (pathItemAllOps p).map fixOp := by
  unfold pathItemAllOps fixPathItem
  dsimp only
  simp [optList_map, List.map_append]

theorem allResponses_fix {δ π : Type} (s : Swagger δ π) :
    allResponses (FixEmptyResponseDescriptions s) = (allResponses s).map FixEmptyDesc := by
  unfold allResponses FixEmptyResponseDescriptions
  dsimp only
  rw [List.map_append]
  congr 1
  · rw [catMaps_map, map_catMaps]
    apply catMaps_congr
    intro kv _
    rw [pathItemAllOps_fix, catMaps_map, map_catMaps]
    apply catMaps_congr
    intro op _
    show respsOf (FixEmptyDescs op.responses) = _
    rw [respsOf_fix]
  · simp [List.map_map]

theorem fixSwagger_idem {δ π : Type} (s : Swagger δ π) :
    FixEmptyResponseDescriptions (FixEmptyResponseDescriptions s) = FixEmptyResponseDescriptions s := by
  unfold FixEmptyResponseDescriptions
  dsimp only
  rw [map_pair_idem fixPathItem fixPathItem_idem, map_pair_idem FixEmptyDesc fixEmptyDesc_idem]

theorem fixEmptyDesc_ref (r : Response) (h : r.hasRef = true) : FixEmptyDesc r = r := by
  unfold FixEmptyDesc
  rw [if_pos (Or.inr h)]

theorem fixEmptyDesc_nonempty (r : Response) (h : r.description ≠ "") : FixEmptyDesc r = r := by
  unfold FixEmptyDesc
  rw [if_pos (Or.inl h)]

theorem fixEmptyDesc_empty (r : Response) (h1 : r.description = "") (h2 : r.hasRef = false) :
    FixEmptyDesc r = { r with description := "(empty)" } := by
  unfold FixEmptyDesc
  rw [if_neg]
  push_neg
  exact ⟨h1, by simp [h2]⟩

/-! ### Claim C5 -/

/-- Claim C5: the response-description repair is idempotent, and after
one application every reachable response (through any of the seven
methods of any path entry, or in the top-level responses collection) is
exactly the FixEmptyDesc image of the original: unchanged when the
description was non-empty or the response is a reference, and exactly
"(empty)" when the description was empty on a non-reference. -/
theorem c5_repair_idempotent_and_pointwise {δ π : Type} :
    (∀ s : Swagger δ π,
      FixEmptyResponseDescriptions (FixEmptyResponseDescriptions s) = FixEmptyResponseDescriptions s) ∧
    (∀ s : Swagger δ π,
      allResponses (FixEmptyResponseDescriptions s) = (allResponses s).map FixEmptyDesc) ∧
    (∀ r : Response, r.hasRef = true → FixEmptyDesc r = r) ∧
    (∀ r : Response, r.description ≠ "" → FixEmptyDesc r = r) ∧
    (∀ r : Response, r.description = "" → r.hasRef = false →
      FixEmptyDesc r = { r with description := "(empty)" }) :=
  ⟨fixSwagger_idem, allResponses_fix, fixEmptyDesc_ref, fixEmptyDesc_nonempty, fixEmptyDesc_empty⟩

/-- Witness for C5: the pointwise clauses evaluated at concrete
responses. -/
theorem c5_repair_idempotent_and_pointwise_witness :
    FixEmptyDesc ⟨"", true⟩ = ⟨"", true⟩ ∧ FixEmptyDesc ⟨"d", false⟩ = ⟨"d", false⟩ ∧
      FixEmptyDesc ⟨"", false⟩ = ⟨"(empty)", false⟩ :=
  ⟨(c5_repair_idempotent_and_pointwise (δ := Unit) (π := Unit)).2.2.1 ⟨"", true⟩ rfl,
   (c5_repair_idempotent_and_pointwise (δ := Unit) (π := Unit)).2.2.2.1 ⟨"d", false⟩ (by decide),
   (c5_repair_idempotent_and_pointwise (δ := Unit) (π := Unit)).2.2.2.2 ⟨"", false⟩ rfl rfl⟩

/-! ### Operation-id scan lemmas (claim C8) -/

theorem mem_collectIds {reg : List String} {l : List Operation} {x : String} :
    x ∈ collectIds reg l ↔ x ∈ reg ∨ ∃ op ∈ l, op.id = x := by
  induction l generalizing reg with
  | nil => simp [collectIds]
  | cons op rest ih =>
    unfold collectIds
    rw [ih]
    simp only [mem_addId, List.mem_cons]
    constructor
    · rintro ((rfl | hx) | ⟨op', hop', hid⟩)
      · exact Or.inr ⟨op, Or.inl rfl, rfl⟩
      · exact Or.inl hx
      · exact Or.inr ⟨op', Or.inr hop', hid⟩
    · rintro (hx | ⟨op', rfl | hop', hid⟩)
      · exact Or.inl (Or.inr hx)
      · exact Or.inl (Or.inl hid.symm)
      · exact Or.inr ⟨op', hop', hid⟩

theorem appendOp_eq (ops : List Operation) (o : Option Operation) :
    appendOp ops o = ops ++ optList o := by
  cases o <;> simp [appendOp, optList]

theorem pathItemOps_eq (p : PathItem) :
    pathItemOps p = optList p.get ++ optList p.put ++ optList p.post ++ optList p.delete ++
      optList p.head ++ optList p.patch := by
  unfold pathItemOps
  rw [appendOp_eq, appendOp_eq, appendOp_eq, appendOp_eq, appendOp_eq, appendOp_eq]
  simp

theorem mem_optList {o : Option Operation} {op : Operation} : op ∈ optList o ↔ o = some op := by
  cases o <;> simp [optList, eq_comm]

theorem mem_pathItemOps {p : PathItem} {op : Operation} :
    op ∈ pathItemOps p ↔
      p.get = some op ∨ p.put = some op ∨ p.post = some op ∨ p.delete = some op ∨
        p.head = some op ∨ p.patch = some op := by
  rw [pathItemOps_eq]
  simp only [List.mem_append, mem_optList]
  tauto

/-! ### Claim C8 -/

/-- Claim C8: the id-collection scan covers exactly the Get, Put, Post,
Delete, Head and Patch slots of every path entry (an id held only by an
OPTIONS operation is never registered), while the repair pass does cover
Options: the merged document's OPTIONS operations come out with their
responses repaired. -/
theorem c8_options_scan_asymmetry {δ π : Type} :
    (∀ (s : Swagger δ π) (x : String),
      x ∈ getOpIds s ↔ ∃ kv ∈ s.paths, ∃ op : Operation,
        (kv.2.get = some op ∨ kv.2.put = some op ∨ kv.2.post = some op ∨
          kv.2.delete = some op ∨ kv.2.head = some op ∨ kv.2.patch = some op) ∧ op.id = x) ∧
    (∀ (s : Swagger δ π) (k : String) (pi : PathItem) (op : Operation),
      lookupS s.paths k = some pi → pi.options = some op →
        ∃ pi', lookupS (FixEmptyResponseDescriptions s).paths k = some pi' ∧
          pi'.options = some { op with responses := FixEmptyDescs op.responses }) := by
  constructor
  · intro s x
    unfold getOpIds
    rw [mem_collectIds]
    simp only [List.not_mem_nil, false_or, mem_catMaps]
    constructor
    · rintro ⟨op, ⟨kv, hkv, hop⟩, hid⟩
      exact ⟨kv, hkv, op, mem_pathItemOps.mp hop, hid⟩
    · rintro ⟨kv, hkv, op, hop, hid⟩
      exact ⟨op, ⟨kv, hkv, mem_pathItemOps.mpr hop⟩, hid⟩
  · intro s k pi op hlk hopt
    refine ⟨fixPathItem pi, ?_, ?_⟩
    · show lookupS (s.paths.map (fun kv => (kv.1, fixPathItem kv.2))) k = _
      rw [lookupS_map_value, hlk]
      rfl
    · show (fixPathItem pi).options = _
      unfold fixPathItem
      dsimp only
      rw [hopt]
      rfl

/-- Witness for C8: a document whose only operation sits in the OPTIONS
slot; its id is not registered, and its responses get repaired. -/
theorem c8_options_scan_asymmetry_witness :
    ("optId" ∉ getOpIds exP8) ∧
      ∃ pi', lookupS (FixEmptyResponseDescriptions exP8).paths "/o" = some pi' ∧
        pi'.options =
          some (⟨"optId", FixEmptyDescs ⟨some ⟨"", false⟩, [(200, ⟨"", false⟩)]⟩⟩ : Operation) := by
  constructor
  · decide
  · exact (c8_options_scan_asymmetry (δ := Unit) (π := Unit)).2 exP8 "/o" (itmO "optId")
      ⟨"optId", ⟨some ⟨"", false⟩, [(200, ⟨"", false⟩)]⟩⟩ (by decide) (by decide)

/-! ### Load-flow lemmas (claim C9) -/

theorem loadMixins_first_error {δ π : Type} (env : Env δ π) (fs : List String) (j : Nat)
    (f : String) (e : String) (hf : fs[j]? = some f) (he : env.load f = Except.error e)
    (hok : ∀ j' f', j' < j → fs[j']? = some f' → ∃ m, env.load f' = Except.ok m) :
    loadMixins env fs = Except.error e := by
  induction fs generalizing j with
  | nil => simp at hf
  | cons f0 rest ih =>
    cases j with
    | zero =>
      simp only [List.getElem?_cons_zero, Option.some.injEq] at hf
      subst hf
      unfold loadMixins
      rw [he]
    | succ j' =>
      simp only [List.getElem?_cons_succ] at hf
      obtain ⟨m0, hm0⟩ := hok 0 f0 (Nat.succ_pos j') (by simp)
      unfold loadMixins
      rw [hm0]
      rw [ih j' hf (fun j'' f'' hj'' hf'' =>
        hok (j'' + 1) f'' (Nat.succ_lt_succ hj'') (by simpa using hf''))]

/-! ### Claim C9 -/

/-- Claim C9 is false on the code for write failures: the source calls
w.Write(bs) and discards both results (mixer.go line 139), so a failing
write neither aborts nor surfaces an error.  Concretely: loads and
marshal succeed, the write fails with error werr after emitting a
partial chunk, yet MixinFiles returns the collision count with no error
and the partial output remains on the sink. -/
theorem c9_write_error_discarded_cex :
    (exEnvW.write "json").2 = some "werr" ∧
      MixinFiles exEnvW "p" [] = ((0, none), ["par"]) := by
  constructor
  · rfl
  · rfl

/-- Claim C9 amended: MixinFiles aborts on the first load error,
returning that error with count 0 and writing nothing (no merge work
escapes); when every load succeeds but marshalling the
merged-and-repaired primary fails, it returns that error with count 0
and writes nothing, discarding the merge.  A failing write, however, is
not detected: once marshalling succeeds, MixinFiles returns the
collision count with no error regardless of the write's outcome, and the
sink keeps whatever the write managed to emit. -/
theorem c9_error_aborts_amended {δ π : Type} :
    (∀ (env : Env δ π) (pf : String) (mfs : List String) (e : String),
      env.load pf = Except.error e → MixinFiles env pf mfs = ((0, some e), [])) ∧
    (∀ (env : Env δ π) (pf : String) (mfs : List String) (p : Swagger δ π) (j : Nat)
        (f e : String),
      env.load pf = Except.ok p → mfs[j]? = some f → env.load f = Except.error e →
      (∀ j' f', j' < j → mfs[j']? = some f' → ∃ m, env.load f' = Except.ok m) →
      MixinFiles env pf mfs = ((0, some e), [])) ∧
    (∀ (env : Env δ π) (pf : String) (mfs : List String) (p : Swagger δ π)
        (ms : List (Swagger δ π)) (e : String),
      env.load pf = Except.ok p → loadMixins env mfs = Except.ok ms →
      env.marshal (FixEmptyResponseDescriptions (Mixin p ms).1) = Except.error e →
      MixinFiles env pf mfs = ((0, some e), [])) ∧
    (∀ (env : Env δ π) (pf : String) (mfs : List String) (p : Swagger δ π)
        (ms : List (Swagger δ π)) (bs : String),
      env.load pf = Except.ok p → loadMixins env mfs = Except.ok ms →
      env.marshal (FixEmptyResponseDescriptions (Mixin p ms).1) = Except.ok bs →
      MixinFiles env pf mfs = (((Mixin p ms).2, none), (env.write bs).1)) := by
  refine ⟨?_, ?_, ?_, ?_⟩
  · intro env pf mfs e he
    unfold MixinFiles
    rw [he]
  · intro env pf mfs p j f e hp hf he hok
    unfold MixinFiles
    rw [hp, loadMixins_first_error env mfs j f e hf he hok]
  · intro env pf mfs p ms e hp hms hmar
    unfold MixinFiles
    rw [hp, hms]
    dsimp only
    rw [hmar]
  · intro env pf mfs p ms bs hp hms hmar
    unfold MixinFiles
    rw [hp, hms]
    dsimp only
    rw [hmar]

/-- Witness for the amended C9: a loader that always fails makes
MixinFiles return the error with count 0 and write nothing, and a
failing write leaves the count-and-no-error result untouched. -/
theorem c9_error_aborts_amended_witness :
    MixinFiles exEnvBad "p" ["m"] = ((0, some "boom"), []) ∧
      MixinFiles exEnvW "p" [] = ((0, none), ["par"]) :=
  ⟨(c9_error_aborts_amended (δ := Unit) (π := Unit)).1 exEnvBad "p" ["m"] "boom" rfl,
   (c9_error_aborts_amended (δ := Unit) (π := Unit)).2.2.2 exEnvW "p" []
     ⟨[], [], [], []⟩ [] "json" rfl rfl rfl⟩

/-! ### Claim C4 -/

/-- Claim C4 is false on the code: in the claimed scenario (primary /a
with getA; mixin 0 with /a and /b both carrying getA) the merged /b
operation does not keep the id getA — the primary's getA was registered
by the initial scan, so the /b operation is renamed to getAMixin0, which
therefore does appear in the merged primary. -/
theorem c4_scenario_cex :
    ((lookupS (Mixin exP4 [exM4]).1.paths "/b").bind PathItem.get).map Operation.id
        = some "getAMixin0" ∧
      some "getAMixin0" ≠ some "getA" := by
  decide

/-- Claim C4 amended: in the scenario, the collision count is 1, the
merged path keys are exactly /a and /b, the primary keeps its own /a
entry untouched, and the mixin's /b operation is renamed to getAMixin0
(the mixin's /a entry is dropped entirely). -/
theorem c4_scenario_amended :
    (Mixin exP4 [exM4]).2 = 1 ∧
    keysOf (Mixin exP4 [exM4]).1.paths = ["/a", "/b"] ∧
    lookupS (Mixin exP4 [exM4]).1.paths "/a" = some (itmG "getA") ∧
    ((lookupS (Mixin exP4 [exM4]).1.paths "/b").bind PathItem.get).map Operation.id
      = some "getAMixin0" := by
  decide

/-! ### Claim C6 -/

/-- Claim C6 is false on the code: getOpIds registers empty ids too, so
an empty-identifier operation from a mixin is renamed (here to Mixin0)
whenever the empty string is already registered, e.g. because the
primary has an operation with an empty id. -/
theorem c6_empty_id_cex :
    ((lookupS (Mixin exP6 [exM6]).1.paths "/q").bind PathItem.get).map Operation.id
        = some "Mixin0" ∧
      ("Mixin0" : String) ≠ "" := by
  decide

/-- Claim C6 amended: the disambiguation step treats the empty identifier
like any other: an empty-id operation passes through unchanged (and "" is
then registered) exactly when "" is not yet in the registry; when "" is
already registered the operation is renamed to "Mixin<i>". -/
theorem c6_empty_id_amended (reg : List String) (i : Nat) (op : Operation) (h : op.id = "") :
    (reg.contains "" = false → renameOp1 reg i op = ("" :: reg, op)) ∧
    (reg.contains "" = true →
      renameOp1 reg i op =
        (addId reg ("Mixin" ++ toString i), { op with id := "Mixin" ++ toString i })) := by
  constructor
  · intro hc
    unfold renameOp1
    rw [h, hc]
    simp only [Bool.false_eq_true, if_false]
    unfold addId
    rw [hc]
    simp
  · intro hc
    unfold renameOp1
    rw [h, hc]
    simp only [if_true]
    rw [show ("" ++ "Mixin" : String) = "Mixin" from rfl]

/-- Witness for the amended C6 at concrete registries. -/
theorem c6_empty_id_amended_witness :
    renameOp1 ["x"] 0 ⟨"", rsE⟩ = ("" :: ["x"], ⟨"", rsE⟩) ∧
    renameOp1 [""] 0 ⟨"", rsE⟩ =
      (addId [""] ("Mixin" ++ toString 0), ⟨"Mixin" ++ toString 0, rsE⟩) :=
  ⟨(c6_empty_id_amended ["x"] 0 ⟨"", rsE⟩ rfl).1 (by decide),
   (c6_empty_id_amended [""] 0 ⟨"", rsE⟩ rfl).2 (by decide)⟩

/-! ### N-model lemmas (claim C10) -/

theorem mergeEntriesN_nil_fault {α : Type} (entries : SMap α) (h : entries ≠ []) :
    mergeEntriesN (none : Option (SMap α)) entries = none := by
  cases entries with
  | nil => exact absurd rfl h
  | cons kv rest =>
    obtain ⟨k, v⟩ := kv
    rfl

theorem mergeEntriesN_nil_ok {α : Type} :
    mergeEntriesN (none : Option (SMap α)) [] = some (none, 0) := rfl

theorem mergeEntriesN_some_ok {α : Type} (entries : SMap α) (m : SMap α) :
    ∃ m' n, mergeEntriesN (some m) entries = some (some m', n) := by
  induction entries generalizing m with
  | nil => exact ⟨m, 0, rfl⟩
  | cons kv rest ih =>
    obtain ⟨k, v⟩ := kv
    unfold mergeEntriesN
    by_cases hc : containsOpt (some m) k = true
    · rw [if_pos hc]
      obtain ⟨m', n, hmn⟩ := ih m
      rw [hmn, Option.some_bind]
      exact ⟨m', n + 1, rfl⟩
    · rw [if_neg hc, Option.some_bind]
      exact ih (m ++ [(k, v)])

theorem mergePathsN_nil_fault (reg : List String) (i : Nat) (entries : SMap NPathItem)
    (h : entries ≠ []) : mergePathsN reg none i entries = none := by
  cases entries with
  | nil => exact absurd rfl h
  | cons kv rest =>
    obtain ⟨k, v⟩ := kv
    rfl

theorem mergePathsN_nil_ok (reg : List String) (i : Nat) :
    mergePathsN reg none i [] = some (reg, none, 0) := rfl

theorem mergePathsN_some_ok (entries : SMap NPathItem) (reg : List String) (i : Nat)
    (m : SMap NPathItem) :
    ∃ reg' m' n, mergePathsN reg (some m) i entries = some (reg', some m', n) := by
  induction entries generalizing reg m with
  | nil => exact ⟨reg, m, 0, rfl⟩
  | cons kv rest ih =>
    obtain ⟨k, v⟩ := kv
    unfold mergePathsN
    by_cases hc : containsOpt (some m) k = true
    · rw [if_pos hc]
      obtain ⟨reg', m', n, hmn⟩ := ih reg m
      rw [hmn, Option.some_bind]
      exact ⟨reg', m', n + 1, rfl⟩
    · rw [if_neg hc]
      rw [Option.some_bind]
      exact ih _ _

theorem mixinLoopN_defs_fault {δ π : Type} (ms : List (NSwagger δ π)) :
    ∀ (i : Nat) (reg : List String) (P : NSwagger δ π), P.definitions = none →
      (∃ m ∈ ms, entriesOpt m.definitions ≠ []) → mixinLoopN i reg P ms = none := by
  induction ms with
  | nil =>
    intro i reg P _ hm
    simp at hm
  | cons m rest ih =>
    intro i reg P hP hm
    obtain ⟨m', hm', hne⟩ := hm
    unfold mixinLoopN
    by_cases hd : entriesOpt m.definitions = []
    · rw [hP, hd, mergeEntriesN_nil_ok]
      simp only [Option.some_bind]
      cases hpa : mergePathsN reg P.paths i (entriesOpt m.paths) with
      | none => rw [Option.none_bind]
      | some pa =>
        simp only [Option.some_bind]
        cases hpr : mergeEntriesN P.parameters (entriesOpt m.parameters) with
        | none => rw [Option.none_bind]
        | some pr =>
          simp only [Option.some_bind]
          cases hrs : mergeEntriesN P.responses (entriesOpt m.responses) with
          | none => rw [Option.none_bind]
          | some rs =>
            simp only [Option.some_bind]
            have hrest : m' ∈ rest := by
              rcases List.mem_cons.mp hm' with rfl | h
              · exact absurd hd hne
              · exact h
            rw [ih (i + 1) pa.1 _ rfl ⟨m', hrest, hne⟩, Option.none_bind]
    · rw [hP, mergeEntriesN_nil_fault _ hd, Option.none_bind]

theorem mixinLoopN_paths_fault {δ π : Type} (ms : List (NSwagger δ π)) :
    ∀ (i : Nat) (reg : List String) (P : NSwagger δ π), P.paths = none →
      (∃ m ∈ ms, entriesOpt m.paths ≠ []) → mixinLoopN i reg P ms = none := by
  induction ms with
  | nil =>
    intro i reg P _ hm
    simp at hm
  | cons m rest ih =>
    intro i reg P hP hm
    obtain ⟨m', hm', hne⟩ := hm
    unfold mixinLoopN
    cases hd : mergeEntriesN P.definitions (entriesOpt m.definitions) with
    | none => rw [Option.none_bind]
    | some d =>
      simp only [Option.some_bind]
      by_cases hp : entriesOpt m.paths = []
      · rw [hP, hp, mergePathsN_nil_ok]
        simp only [Option.some_bind]
        cases hpr : mergeEntriesN P.parameters (entriesOpt m.parameters) with
        | none => rw [Option.none_bind]
        | some pr =>
          simp only [Option.some_bind]
          cases hrs : mergeEntriesN P.responses (entriesOpt m.responses) with
          | none => rw [Option.none_bind]
          | some rs =>
            simp only [Option.some_bind]
            have hrest : m' ∈ rest := by
              rcases List.mem_cons.mp hm' with rfl | h
              · exact absurd hp hne
              · exact h
            rw [ih (i + 1) reg _ rfl ⟨m', hrest, hne⟩, Option.none_bind]
      · rw [hP, mergePathsN_nil_fault _ _ _ hp, Option.none_bind]

theorem mixinLoopN_params_fault {δ π : Type} (ms : List (NSwagger δ π)) :
    ∀ (i : Nat) (reg : List String) (P : NSwagger δ π), P.parameters = none →
      (∃ m ∈ ms, entriesOpt m.parameters ≠ []) → mixinLoopN i reg P ms = none := by
  induction ms with
  | nil =>
    intro i reg P _ hm
    simp at hm
  | cons m rest ih =>
    intro i reg P hP hm
    obtain ⟨m', hm', hne⟩ := hm
    unfold mixinLoopN
    cases hd : mergeEntriesN P.definitions (entriesOpt m.definitions) with
    | none => rw [Option.none_bind]
    | some d =>
      simp only [Option.some_bind]
      cases hpa : mergePathsN reg P.paths i (entriesOpt m.paths) with
      | none => rw [Option.none_bind]
      | some pa =>
        simp only [Option.some_bind]
        by_cases hp : entriesOpt m.parameters = []
        · rw [hP, hp, mergeEntriesN_nil_ok]
          simp only [Option.some_bind]
          cases hrs : mergeEntriesN P.responses (entriesOpt m.responses) with
          | none => rw [Option.none_bind]
          | some rs =>
            simp only [Option.some_bind]
            have hrest : m' ∈ rest := by
              rcases List.mem_cons.mp hm' with rfl | h
              · exact absurd hp hne
              · exact h
            rw [ih (i + 1) pa.1 _ rfl ⟨m', hrest, hne⟩, Option.none_bind]
        · rw [hP, mergeEntriesN_nil_fault _ hp, Option.none_bind]

theorem mixinLoopN_resps_fault {δ π : Type} (ms : List (NSwagger δ π)) :
    ∀ (i : Nat) (reg : List String) (P : NSwagger δ π), P.responses = none →
      (∃ m ∈ ms, entriesOpt m.responses ≠ []) → mixinLoopN i reg P ms = none := by
  induction ms with
  | nil =>
    intro i reg P _ hm
    simp at hm
  | cons m rest ih =>
    intro i reg P hP hm
    obtain ⟨m', hm', hne⟩ := hm
    unfold mixinLoopN
    cases hd : mergeEntriesN P.definitions (entriesOpt m.definitions) with
    | none => rw [Option.none_bind]
    | some d =>
      simp only [Option.some_bind]
      cases hpa : mergePathsN reg P.paths i (entriesOpt m.paths) with
      | none => rw [Option.none_bind]
      | some pa =>
        simp only [Option.some_bind]
        cases hpr : mergeEntriesN P.parameters (entriesOpt m.parameters) with
        | none => rw [Option.none_bind]
        | some pr =>
          simp only [Option.some_bind]
          by_cases hp : entriesOpt m.responses = []
          · rw [hP, hp, mergeEntriesN_nil_ok]
            simp only [Option.some_bind]
            have hrest : m' ∈ rest := by
              rcases List.mem_cons.mp hm' with rfl | h
              · exact absurd hp hne
              · exact h
            rw [ih (i + 1) pa.1 _ rfl ⟨m', hrest, hne⟩, Option.none_bind]
          · rw [hP, mergeEntriesN_nil_fault _ hp, Option.none_bind]

theorem mixinLoopN_ok {δ π : Type} (ms : List (NSwagger δ π)) :
    ∀ (i : Nat) (reg : List String) (P : NSwagger δ π),
      P.definitions.isSome → P.paths.isSome → P.parameters.isSome → P.responses.isSome →
      (mixinLoopN i reg P ms).isSome := by
  induction ms with
  | nil =>
    intro i reg P _ _ _ _
    rfl
  | cons m rest ih =>
    intro i reg P h1 h2 h3 h4
    obtain ⟨d0, hd0⟩ := Option.isSome_iff_exists.mp h1
    obtain ⟨p0, hp0⟩ := Option.isSome_iff_exists.mp h2
    obtain ⟨q0, hq0⟩ := Option.isSome_iff_exists.mp h3
    obtain ⟨r0, hr0⟩ := Option.isSome_iff_exists.mp h4
    obtain ⟨m1, n1, e1⟩ := mergeEntriesN_some_ok (entriesOpt m.definitions) d0
    obtain ⟨reg2, m2, n2, e2⟩ := mergePathsN_some_ok (entriesOpt m.paths) reg i p0
    obtain ⟨m3, n3, e3⟩ := mergeEntriesN_some_ok (entriesOpt m.parameters) q0
    obtain ⟨m4, n4, e4⟩ := mergeEntriesN_some_ok (entriesOpt m.responses) r0
    unfold mixinLoopN
    rw [hd0, hp0, hq0, hr0, e1, e2, e3, e4]
    simp only [Option.some_bind]
    have hrec := ih (i + 1) reg2
      { definitions := some m1, paths := some m2, parameters := some m3, responses := some m4 }
      rfl rfl rfl rfl
    obtain ⟨r, hr⟩ := Option.isSome_iff_exists.mp hrec
    rw [hr]
    rfl

theorem fixOpN_ok (slot : Option NOperation) (h : ∀ op, slot = some op → op.responses.isSome) :
    (fixOpN slot).isSome := by
  cases slot with
  | none => rfl
  | some op =>
    obtain ⟨rs, hrs⟩ := Option.isSome_iff_exists.mp (h op rfl)
    unfold fixOpN
    dsimp only
    rw [hrs]
    rfl

theorem fixPathItemN_ok (p : NPathItem) (h : ∀ op ∈ pathItemAllOpsN p, op.responses.isSome) :
    (fixPathItemN p).isSome := by
  have hg : ∀ op, p.get = some op → op.responses.isSome := fun op hop =>
    h op (by simp [pathItemAllOpsN, hop])
  have hpu : ∀ op, p.put = some op → op.responses.isSome := fun op hop =>
    h op (by simp [pathItemAllOpsN, hop])
  have hpo : ∀ op, p.post = some op → op.responses.isSome := fun op hop =>
    h op (by simp [pathItemAllOpsN, hop])
  have hde : ∀ op, p.delete = some op → op.responses.isSome := fun op hop =>
    h op (by simp [pathItemAllOpsN, hop])
  have hop' : ∀ op, p.options = some op → op.responses.isSome := fun op hop =>
    h op (by simp [pathItemAllOpsN, hop])
  have hhe : ∀ op, p.head = some op → op.responses.isSome := fun op hop =>
    h op (by simp [pathItemAllOpsN, hop])
  have hpt : ∀ op, p.patch = some op → op.responses.isSome := fun op hop =>
    h op (by simp [pathItemAllOpsN, hop])
  obtain ⟨g, hgE⟩ := Option.isSome_iff_exists.mp (fixOpN_ok p.get hg)
  obtain ⟨pu, hpuE⟩ := Option.isSome_iff_exists.mp (fixOpN_ok p.put hpu)
  obtain ⟨po, hpoE⟩ := Option.isSome_iff_exists.mp (fixOpN_ok p.post hpo)
  obtain ⟨de, hdeE⟩ := Option.isSome_iff_exists.mp (fixOpN_ok p.delete hde)
  obtain ⟨opv, hopE⟩ := Option.isSome_iff_exists.mp (fixOpN_ok p.options hop')
  obtain ⟨he, hheE⟩ := Option.isSome_iff_exists.mp (fixOpN_ok p.head hhe)
  obtain ⟨pt, hptE⟩ := Option.isSome_iff_exists.mp (fixOpN_ok p.patch hpt)
  unfold fixPathItemN
  rw [hgE, hpuE, hpoE, hdeE, hopE, hheE, hptE]
  rfl

theorem fixPathsN_ok (l : SMap NPathItem)
    (h : ∀ kv ∈ l, ∀ op ∈ pathItemAllOpsN kv.2, op.responses.isSome) :
    (fixPathsN l).isSome := by
  induction l with
  | nil => rfl
  | cons kv rest ih =>
    obtain ⟨v', hv'⟩ := Option.isSome_iff_exists.mp
      (fixPathItemN_ok kv.2 (h kv (List.mem_cons_self kv rest)))
    obtain ⟨rest', hrest'⟩ := Option.isSome_iff_exists.mp
      (ih (fun kv' hkv' => h kv' (List.mem_cons_of_mem _ hkv')))
    show ((fixPathItemN kv.2).bind _).isSome
    rw [hv', hrest']
    rfl

/-! ### Claim C10 -/

/-- Claim C10: in the N-model, where nil Go maps and nil pointers are
explicit, Mixin faults whenever one of the primary's four collections is
a nil map while some mixin's corresponding collection is non-empty, and
never faults when all four are non-nil; FixEmptyDescs faults exactly on a
nil Responses pointer, and the repair pass never faults when every
present operation carries a non-nil Responses pointer. -/
theorem c10_nil_containers {δ π : Type} :
    (∀ (P : NSwagger δ π) (ms : List (NSwagger δ π)),
      ((P.definitions = none ∧ ∃ m ∈ ms, entriesOpt m.definitions ≠ []) ∨
       (P.paths = none ∧ ∃ m ∈ ms, entriesOpt m.paths ≠ []) ∨
       (P.parameters = none ∧ ∃ m ∈ ms, entriesOpt m.parameters ≠ []) ∨
       (P.responses = none ∧ ∃ m ∈ ms, entriesOpt m.responses ≠ [])) →
      MixinN P ms = none) ∧
    (∀ (P : NSwagger δ π) (ms : List (NSwagger δ π)),
      P.definitions.isSome → P.paths.isSome → P.parameters.isSome → P.responses.isSome →
      (MixinN P ms).isSome) ∧
    FixEmptyDescsN none = none ∧
    (∀ rs : Responses, (FixEmptyDescsN (some rs)).isSome) ∧
    (∀ s : NSwagger δ π,
      (∀ kv ∈ entriesOpt s.paths, ∀ op ∈ pathItemAllOpsN kv.2, op.responses.isSome) →
      (FixEmptyResponseDescriptionsN s).isSome) := by
  refine ⟨?_, ?_, rfl, fun rs => rfl, ?_⟩
  · intro P ms h
    rcases h with ⟨hP, hm⟩ | ⟨hP, hm⟩ | ⟨hP, hm⟩ | ⟨hP, hm⟩
    · exact mixinLoopN_defs_fault ms 0 (getOpIdsN P) P hP hm
    · exact mixinLoopN_paths_fault ms 0 (getOpIdsN P) P hP hm
    · exact mixinLoopN_params_fault ms 0 (getOpIdsN P) P hP hm
    · exact mixinLoopN_resps_fault ms 0 (getOpIdsN P) P hP hm
  · intro P ms h1 h2 h3 h4
    exact mixinLoopN_ok ms 0 (getOpIdsN P) P h1 h2 h3 h4
  · intro s h
    obtain ⟨ps', hps'⟩ := Option.isSome_iff_exists.mp (fixPathsN_ok _ h)
    unfold FixEmptyResponseDescriptionsN
    rw [hps']
    rfl

/-- Witness for C10: a nil definitions map with a non-empty mixin
definitions collection faults; with all containers non-nil the same call
succeeds. -/
theorem c10_nil_containers_witness :
    MixinN exNP [exNM] = none ∧ (MixinN exNP2 [exNM]).isSome ∧
      (FixEmptyDescsN (some rsE)).isSome :=
  ⟨(c10_nil_containers (δ := Unit) (π := Unit)).1 exNP [exNM]
      (Or.inl ⟨rfl, exNM, List.mem_singleton.mpr rfl, by decide⟩),
   (c10_nil_containers (δ := Unit) (π := Unit)).2.1 exNP2 [exNM] rfl rfl rfl rfl,
   (c10_nil_containers (δ := Unit) (π := Unit)).2.2.2.1 rsE⟩

/-! ### H-model frame lemmas (claim C7) -/

theorem storeExtends_refl (st : List HOperation) : storeExtends st st :=
  ⟨rfl, fun _ op h => ⟨op, h, "", by simp⟩⟩

theorem storeExtends_trans {a b c : List HOperation} (h1 : storeExtends a b)
    (h2 : storeExtends b c) : storeExtends a c := by
  obtain ⟨l1, g1⟩ := h1
  obtain ⟨l2, g2⟩ := h2
  refine ⟨l2.trans l1, fun q op h => ?_⟩
  obtain ⟨op1, hb, t1, ht1⟩ := g1 q op h
  obtain ⟨op2, hc, t2, ht2⟩ := g2 q op1 hb
  exact ⟨op2, hc, t1 ++ t2, by rw [ht2, ht1, String.append_assoc]⟩

theorem renameOp1H_extends (st : List HOperation) (reg : List String) (i : Nat) (p : Nat) :
    storeExtends st (renameOp1H st reg i p).1 := by
  unfold renameOp1H
  cases hp : st[p]? with
  | none => exact storeExtends_refl st
  | some op =>
    dsimp only
    by_cases hc : reg.contains op.id = true
    · rw [if_pos hc]
      dsimp only
      refine ⟨List.length_set st p _, fun q op0 hq => ?_⟩
      by_cases hqp : p = q
      · subst hqp
        have hlt : p < st.length := by
          by_contra hge
          rw [List.getElem?_eq_none (Nat.le_of_not_lt hge)] at hq
          exact Option.noConfusion hq
        have hop0 : op0 = op := by
          rw [hp] at hq
          exact (Option.some.injEq _ _ ▸ hq).symm
        refine ⟨⟨op.id ++ "Mixin" ++ toString i⟩, ?_, ?_⟩
        · rw [List.getElem?_set]
          simp [hlt]
        · exact ⟨"Mixin" ++ toString i, by rw [hop0, String.append_assoc]⟩
      · refine ⟨op0, ?_, "", by simp⟩
        rw [List.getElem?_set]
        simp [hqp, hq]
    · rw [if_neg hc]
      exact storeExtends_refl st

theorem renameOpH_extends (st : List HOperation) (reg : List String) (i : Nat)
    (slot : Option Nat) : storeExtends st (renameOpH st reg i slot).1 := by
  cases slot with
  | none => exact storeExtends_refl st
  | some p => exact renameOp1H_extends st reg i p

theorem renamePathItemH_extends (st : List HOperation) (reg : List String) (i : Nat)
    (p : HPathItem) : storeExtends st (renamePathItemH st reg i p).1 := by
  unfold renamePathItemH
  exact storeExtends_trans (renameOpH_extends _ _ _ _)
    (storeExtends_trans (renameOpH_extends _ _ _ _)
      (storeExtends_trans (renameOpH_extends _ _ _ _)
        (storeExtends_trans (renameOpH_extends _ _ _ _)
          (storeExtends_trans (renameOpH_extends _ _ _ _) (renameOpH_extends _ _ _ _)))))

theorem mergePathsH_extends (entries : SMap HPathItem) (st : List HOperation)
    (reg : List String) (prim : SMap HPathItem) (i : Nat) :
    storeExtends st (mergePathsH st reg prim i entries).1 := by
  induction entries generalizing st reg prim with
  | nil => exact storeExtends_refl st
  | cons kv rest ih =>
    obtain ⟨k, v⟩ := kv
    unfold mergePathsH
    by_cases hc : containsS prim k = true
    · rw [if_pos hc]
      exact ih st reg prim
    · rw [if_neg hc]
      exact storeExtends_trans (renamePathItemH_extends st reg i v) (ih _ _ _)

theorem mixinLoopH_extends {δ π : Type} (ms : List (HSwagger δ π)) (st : List HOperation)
    (i : Nat) (reg : List String) (P : HSwagger δ π) :
    storeExtends st (mixinLoopH st i reg P ms).1 := by
  induction ms generalizing st i reg P with
  | nil => exact storeExtends_refl st
  | cons m rest ih =>
    exact storeExtends_trans (mergePathsH_extends m.paths st reg P.paths i) (ih _ _ _ _)

/-! ### Claim C7 -/

/-- Claim C7 is false on the code: spec.PathItem stores *Operation
pointers and Go map values copy those pointers, so the per-operation
rename in Mixin writes through a pointer shared with the mixin document.
In the H-model counterexample, the operation reachable from the mixin's
/b entry changes from getA to getAMixin0 during the merge: the mixin is
mutated. -/
theorem c7_mixin_not_mutated_cex :
    reachableOpsH (MixinH exSt exHP [exHM]).1 exHM ≠ reachableOpsH exSt exHM ∧
      reachableOpsH (MixinH exSt exHP [exHM]).1 exHM = [⟨"getAMixin0"⟩] ∧
      reachableOpsH exSt exHM = [⟨"getA"⟩] := by
  refine ⟨?_, by decide, by decide⟩
  decide

/-- Claim C7 amended: Mixin never restructures any document and never
writes anything except operation identifiers: the store keeps its length
and every operation record is either unchanged or has its identifier
extended by a rename suffix; a mixin's reachable operations can therefore
change only by having "Mixin<i>" appended to a colliding identifier. -/
theorem c7_mixin_store_frame {δ π : Type} (st : List HOperation) (P : HSwagger δ π)
    (ms : List (HSwagger δ π)) :
    (MixinH st P ms).1.length = st.length ∧
      ∀ (q : Nat) (op : HOperation), st[q]? = some op →
        ∃ op' : HOperation, (MixinH st P ms).1[q]? = some op' ∧
          ∃ t : String, op'.id = op.id ++ t :=
  mixinLoopH_extends ms st 0 (getOpIdsH st P) P

/-- Witness for the amended C7 at the concrete counterexample store. -/
theorem c7_mixin_store_frame_witness :
    ∃ op' : HOperation, (MixinH exSt exHP [exHM]).1[1]? = some op' ∧
      ∃ t : String, op'.id = "getA" ++ t :=
  (c7_mixin_store_frame exSt exHP [exHM]).2 1 ⟨"getA"⟩ rfl

/-! ### Disjoint-key merge lemmas (claim C2) -/

theorem lookupS_cons {α : Type} (k' : String) (v' : α) (rest : SMap α) (k : String) :
    lookupS ((k', v') :: rest) k = if k' = k then some v' else lookupS rest k := rfl

theorem lookupS_append_of_not_contains {α : Type} {m : SMap α} {k : String} (m' : SMap α)
    (h : containsS m k = false) : lookupS (m ++ m') k = lookupS m' k := by
  induction m with
  | nil => rfl
  | cons kv rest ih =>
    obtain ⟨k', v'⟩ := kv
    by_cases hk : k' = k
    · exfalso
      have hcc : containsS ((k', v') :: rest) k = true := by
        unfold containsS
        rw [lookupS_cons, if_pos hk]
        rfl
      rw [hcc] at h
      exact Bool.noConfusion h
    · have hrest : containsS rest k = false := by
        unfold containsS at h ⊢
        rw [lookupS_cons, if_neg hk] at h
        exact h
      show lookupS ((k', v') :: (rest ++ m')) k = _
      rw [lookupS_cons, if_neg hk]
      exact ih hrest

theorem not_contains_of_nodup_append {α : Type} {prim : SMap α} {k : String} {ks : List String}
    (hnd : (keysOf prim ++ (k :: ks)).Nodup) : containsS prim k = false := by
  apply bool_eq_false
  intro hc
  have hk : k ∈ keysOf prim := (containsS_iff_mem_keys prim k).mp hc
  have hdis := (List.nodup_append.mp hnd).2.2
  exact hdis hk (List.mem_cons_self k ks)

theorem mergeEntries_disjoint {α : Type} (entries : SMap α) :
    ∀ prim : SMap α, (keysOf prim ++ keysOf entries).Nodup →
      mergeEntries prim entries = (prim ++ entries, 0) := by
  induction entries with
  | nil =>
    intro prim _
    simp [mergeEntries]
  | cons kv rest ih =>
    intro prim hnd
    obtain ⟨k, v⟩ := kv
    have hkeys : keysOf ((k, v) :: rest) = k :: keysOf rest := rfl
    rw [hkeys] at hnd
    have hc : containsS prim k = false := not_contains_of_nodup_append hnd
    unfold mergeEntries
    rw [hc]
    simp only [Bool.false_eq_true, if_false]
    have hnd' : (keysOf (prim ++ [(k, v)]) ++ keysOf rest).Nodup := by
      rw [keysOf_append]
      have : keysOf prim ++ keysOf [(k, v)] ++ keysOf rest = keysOf prim ++ (k :: keysOf rest) := by
        simp [keysOf]
      rw [this]
      exact hnd
    rw [ih (prim ++ [(k, v)]) hnd', List.append_assoc]
    rfl

theorem renameOp1_erase (reg : List String) (i : Nat) (op : Operation) :
    eraseOpId (renameOp1 reg i op).2 = eraseOpId op := by
  unfold renameOp1 eraseOpId
  split <;> rfl

theorem renameOp_erase (reg : List String) (i : Nat) (o : Option Operation) :
    (renameOp reg i o).2.map eraseOpId = o.map eraseOpId := by
  cases o with
  | none => rfl
  | some op =>
    show some (eraseOpId (renameOp1 reg i op).2) = some (eraseOpId op)
    rw [renameOp1_erase]

theorem renamePathItem_erase (reg : List String) (i : Nat) (p : PathItem) :
    eraseIds (renamePathItem reg i p).2 = eraseIds p := by
  unfold renamePathItem eraseIds
  dsimp only
  simp only [renameOp_erase]

theorem mergePaths_disjoint (entries : SMap PathItem) :
    ∀ (reg : List String) (prim : SMap PathItem) (i : Nat),
      (keysOf prim ++ keysOf entries).Nodup →
      (mergePaths reg prim i entries).2.2 = 0 ∧
      keysOf (mergePaths reg prim i entries).2.1 = keysOf prim ++ keysOf entries ∧
      (∀ k v, lookupS entries k = some v →
        ∃ v', lookupS (mergePaths reg prim i entries).2.1 k = some v' ∧
          eraseIds v' = eraseIds v) := by
  induction entries with
  | nil =>
    intro reg prim i _
    refine ⟨rfl, by simp [mergePaths, keysOf], fun k v h => ?_⟩
    exact Option.noConfusion h
  | cons kv rest ih =>
    intro reg prim i hnd
    obtain ⟨k, v⟩ := kv
    rw [show keysOf ((k, v) :: rest) = k :: keysOf rest from rfl] at hnd
    have hc : containsS prim k = false := not_contains_of_nodup_append hnd
    unfold mergePaths
    rw [hc]
    simp only [Bool.false_eq_true, if_false]
    have hnd' : (keysOf (prim ++ [(k, (renamePathItem reg i v).2)]) ++ keysOf rest).Nodup := by
      rw [keysOf_append]
      have heq : keysOf prim ++ keysOf [(k, (renamePathItem reg i v).2)] ++ keysOf rest
          = keysOf prim ++ (k :: keysOf rest) := by
        simp [keysOf]
      rw [heq]
      exact hnd
    obtain ⟨ihc, ihk, ihl⟩ :=
      ih (renamePathItem reg i v).1 (prim ++ [(k, (renamePathItem reg i v).2)]) i hnd'
    refine ⟨ihc, ?_, ?_⟩
    · rw [ihk, keysOf_append]
      simp [keysOf]
    · intro k0 v0 h0
      rw [lookupS_cons] at h0
      by_cases hk0 : k = k0
      · rw [if_pos hk0] at h0
        injection h0 with hv0
        subst hk0
        refine ⟨(renamePathItem reg i v).2, ?_, by rw [renamePathItem_erase, hv0]⟩
        apply mergePaths_preserves
        rw [lookupS_append_of_not_contains _ hc, lookupS_cons, if_pos rfl]
      · rw [if_neg hk0] at h0
        exact ihl k0 v0 h0

theorem containsS_false_of_nodup_append {α : Type} {prim : SMap α} {km : List String} {k : String}
    (hnd : (keysOf prim ++ km).Nodup) (hk : k ∈ km) : containsS prim k = false := by
  apply bool_eq_false
  intro hc
  exact (List.nodup_append.mp hnd).2.2 ((containsS_iff_mem_keys prim k).mp hc) hk

theorem mem_keys_of_lookupS {α : Type} {m : SMap α} {k : String} {v : α}
    (h : lookupS m k = some v) : k ∈ keysOf m := by
  apply (containsS_iff_mem_keys m k).mp
  unfold containsS
  rw [h]
  rfl

theorem mixinLoop_disjoint {δ π : Type} (ms : List (Swagger δ π)) :
    ∀ (i : Nat) (reg : List String) (P : Swagger δ π),
      (keysOf P.definitions ++ catMaps (fun m => keysOf m.definitions) ms).Nodup →
      (keysOf P.paths ++ catMaps (fun m => keysOf m.paths) ms).Nodup →
      (keysOf P.parameters ++ catMaps (fun m => keysOf m.parameters) ms).Nodup →
      (keysOf P.responses ++ catMaps (fun m => keysOf m.responses) ms).Nodup →
      (mixinLoop i reg P ms).2 = 0 ∧
      (mixinLoop i reg P ms).1.definitions.length
        = P.definitions.length + (ms.map (fun m => m.definitions.length)).sum ∧
      (mixinLoop i reg P ms).1.paths.length
        = P.paths.length + (ms.map (fun m => m.paths.length)).sum ∧
      (mixinLoop i reg P ms).1.parameters.length
        = P.parameters.length + (ms.map (fun m => m.parameters.length)).sum ∧
      (mixinLoop i reg P ms).1.responses.length
        = P.responses.length + (ms.map (fun m => m.responses.length)).sum ∧
      (∀ m ∈ ms, ∀ k v, lookupS m.definitions k = some v →
        lookupS (mixinLoop i reg P ms).1.definitions k = some v) ∧
      (∀ m ∈ ms, ∀ k v, lookupS m.parameters k = some v →
        lookupS (mixinLoop i reg P ms).1.parameters k = some v) ∧
      (∀ m ∈ ms, ∀ k v, lookupS m.responses k = some v →
        lookupS (mixinLoop i reg P ms).1.responses k = some v) ∧
      (∀ m ∈ ms, ∀ k v, lookupS m.paths k = some v →
        ∃ v', lookupS (mixinLoop i reg P ms).1.paths k = some v' ∧
          eraseIds v' = eraseIds v) := by
  induction ms with
  | nil =>
    intro i reg P _ _ _ _
    exact ⟨rfl, by simp [mixinLoop], by simp [mixinLoop], by simp [mixinLoop],
      by simp [mixinLoop], by simp, by simp, by simp, by simp⟩
  | cons m rest ih =>
    intro i reg P h1 h2 h3 h4
    simp only [catMaps] at h1 h2 h3 h4
    have h1' : (keysOf P.definitions ++ keysOf m.definitions).Nodup := by
      have h := h1
      rw [← List.append_assoc] at h
      exact h.sublist (List.sublist_append_left _ _)
    have h2' : (keysOf P.paths ++ keysOf m.paths).Nodup := by
      have h := h2
      rw [← List.append_assoc] at h
      exact h.sublist (List.sublist_append_left _ _)
    have h3' : (keysOf P.parameters ++ keysOf m.parameters).Nodup := by
      have h := h3
      rw [← List.append_assoc] at h
      exact h.sublist (List.sublist_append_left _ _)
    have h4' : (keysOf P.responses ++ keysOf m.responses).Nodup := by
      have h := h4
      rw [← List.append_assoc] at h
      exact h.sublist (List.sublist_append_left _ _)
    have hde := mergeEntries_disjoint m.definitions P.definitions h1'
    have hprm := mergeEntries_disjoint m.parameters P.parameters h3'
    have hrsp := mergeEntries_disjoint m.responses P.responses h4'
    obtain ⟨hpc, hpk, hpl⟩ := mergePaths_disjoint m.paths reg P.paths i h2'
    have hh1 : (keysOf (P.definitions ++ m.definitions)
        ++ catMaps (fun m => keysOf m.definitions) rest).Nodup := by
      rw [keysOf_append, List.append_assoc]
      exact h1
    have hh2 : (keysOf (mergePaths reg P.paths i m.paths).2.1
        ++ catMaps (fun m => keysOf m.paths) rest).Nodup := by
      rw [hpk, List.append_assoc]
      exact h2
    have hh3 : (keysOf (P.parameters ++ m.parameters)
        ++ catMaps (fun m => keysOf m.parameters) rest).Nodup := by
      rw [keysOf_append, List.append_assoc]
      exact h3
    have hh4 : (keysOf (P.responses ++ m.responses)
        ++ catMaps (fun m => keysOf m.responses) rest).Nodup := by
      rw [keysOf_append, List.append_assoc]
      exact h4
    have hplen : (mergePaths reg P.paths i m.paths).2.1.length
        = P.paths.length + m.paths.length := by
      have hc := congrArg List.length hpk
      simpa [keysOf] using hc
    simp only [mixinLoop]
    rw [hde, hprm, hrsp]
    dsimp only
    obtain ⟨IC, IL1, IL2, IL3, IL4, IK1, IK2, IK3, IK4⟩ :=
      ih (i + 1) (mergePaths reg P.paths i m.paths).1
        { definitions := P.definitions ++ m.definitions,
          paths := (mergePaths reg P.paths i m.paths).2.1,
          parameters := P.parameters ++ m.parameters,
          responses := P.responses ++ m.responses } hh1 hh2 hh3 hh4
    dsimp only at IC IL1 IL2 IL3 IL4 IK1 IK2 IK3 IK4
    refine ⟨?_, ?_, ?_, ?_, ?_, ?_, ?_, ?_, ?_⟩
    · rw [hpc, IC]
    · rw [IL1]
      simp [List.length_append]
      omega
    · rw [IL2, hplen]
      simp
      omega
    · rw [IL3]
      simp [List.length_append]
      omega
    · rw [IL4]
      simp [List.length_append]
      omega
    · intro m' hm' k v hv
      rcases List.mem_cons.mp hm' with rfl | hmr
      · have hcF : containsS P.definitions k = false :=
          containsS_false_of_nodup_append h1' (mem_keys_of_lookupS hv)
        have hPd : lookupS (P.definitions ++ m'.definitions) k = some v := by
          rw [lookupS_append_of_not_contains _ hcF]
          exact hv
        exact (mixinLoop_preserves rest (i + 1) _ _).1 v hPd
      · exact IK1 m' hmr k v hv
    · intro m' hm' k v hv
      rcases List.mem_cons.mp hm' with rfl | hmr
      · have hcF : containsS P.parameters k = false :=
          containsS_false_of_nodup_append h3' (mem_keys_of_lookupS hv)
        have hPd : lookupS (P.parameters ++ m'.parameters) k = some v := by
          rw [lookupS_append_of_not_contains _ hcF]
          exact hv
        exact (mixinLoop_preserves rest (i + 1) _ _).2.2.1 v hPd
      · exact IK2 m' hmr k v hv
    · intro m' hm' k v hv
      rcases List.mem_cons.mp hm' with rfl | hmr
      · have hcF : containsS P.responses k = false :=
          containsS_false_of_nodup_append h4' (mem_keys_of_lookupS hv)
        have hPd : lookupS (P.responses ++ m'.responses) k = some v := by
          rw [lookupS_append_of_not_contains _ hcF]
          exact hv
        exact (mixinLoop_preserves rest (i + 1) _ _).2.2.2 v hPd
      · exact IK3 m' hmr k v hv
    · intro m' hm' k v hv
      rcases List.mem_cons.mp hm' with rfl | hmr
      · obtain ⟨v', hv', he⟩ := hpl k v hv
        exact ⟨v', (mixinLoop_preserves rest (i + 1) _ _).2.1 v' hv', he⟩
      · exact IK4 m' hmr k v hv

/-! ### Claim C2 -/

/-- Claim C2: when the keys of the primary and all mixins are pairwise
disjoint in each of the four collections (expressed as each concatenated
key stream being duplicate-free), Mixin returns 0 collisions, each merged
collection has exactly the sum of the sizes, and every mixin entry is
present: definitions, parameters and responses unmodified, path items
unmodified up to operation-identifier renaming. -/
theorem c2_disjoint_union {δ π : Type} (P : Swagger δ π) (ms : List (Swagger δ π))
    (h1 : (keysOf P.definitions ++ catMaps (fun m => keysOf m.definitions) ms).Nodup)
    (h2 : (keysOf P.paths ++ catMaps (fun m => keysOf m.paths) ms).Nodup)
    (h3 : (keysOf P.parameters ++ catMaps (fun m => keysOf m.parameters) ms).Nodup)
    (h4 : (keysOf P.responses ++ catMaps (fun m => keysOf m.responses) ms).Nodup) :
    (Mixin P ms).2 = 0 ∧
    (Mixin P ms).1.definitions.length
      = P.definitions.length + (ms.map (fun m => m.definitions.length)).sum ∧
    (Mixin P ms).1.paths.length
      = P.paths.length + (ms.map (fun m => m.paths.length)).sum ∧
    (Mixin P ms).1.parameters.length
      = P.parameters.length + (ms.map (fun m => m.parameters.length)).sum ∧
    (Mixin P ms).1.responses.length
      = P.responses.length + (ms.map (fun m => m.responses.length)).sum ∧
    (∀ m ∈ ms, ∀ k v, lookupS m.definitions k = some v →
      lookupS (Mixin P ms).1.definitions k = some v) ∧
    (∀ m ∈ ms, ∀ k v, lookupS m.parameters k = some v →
      lookupS (Mixin P ms).1.parameters k = some v) ∧
    (∀ m ∈ ms, ∀ k v, lookupS m.responses k = some v →
      lookupS (Mixin P ms).1.responses k = some v) ∧
    (∀ m ∈ ms, ∀ k v, lookupS m.paths k = some v →
      ∃ v', lookupS (Mixin P ms).1.paths k = some v' ∧ eraseIds v' = eraseIds v) :=
  mixinLoop_disjoint ms 0 (getOpIds P) P h1 h2 h3 h4

/-- Witness for C2 at concrete disjoint documents. -/
theorem c2_disjoint_union_witness :
    (Mixin exP2 [exM2]).2 = 0 ∧ lookupS (Mixin exP2 [exM2]).1.definitions "B" = some 1 := by
  have h := c2_disjoint_union exP2 [exM2] (by decide) (by decide) (by decide) (by decide)
  exact ⟨h.1, h.2.2.2.2.2.1 exM2 (List.mem_singleton.mpr rfl) "B" 1 (by decide)⟩

/-! ### Operation-id uniqueness development (claim C3) -/

theorem string_append_cancel_right {x y s : String} (h : x ++ s = y ++ s) : x = y := by
  have hd : x.data ++ s.data = y.data ++ s.data := by
    have hc := congrArg String.data h
    simpa [String.data_append] using hc
  exact String.ext (List.append_cancel_right hd)

theorem mixinSuffixed_inj {x y : String} {i : Nat} (h : mixinSuffixed x i = mixinSuffixed y i) :
    x = y := by
  unfold mixinSuffixed at h
  exact string_append_cancel_right (string_append_cancel_right h)

theorem mem_getOpIds_iff {δ π : Type} (s : Swagger δ π) (z : String) :
    z ∈ getOpIds s ↔ z ∈ scannedOpIds s := by
  unfold getOpIds scannedOpIds pathsIds
  rw [mem_collectIds]
  simp only [List.not_mem_nil, false_or, List.mem_map]

theorem renameOps_append (reg : List String) (i : Nat) (l l' : List Operation) :
    renameOps reg i (l ++ l') =
      ((renameOps (renameOps reg i l).1 i l').1,
        (renameOps reg i l).2 ++ (renameOps (renameOps reg i l).1 i l').2) := by
  induction l generalizing reg with
  | nil => simp [renameOps]
  | cons op rest ih =>
    simp only [List.cons_append, renameOps, List.append_eq, ih]

theorem renameOp_as_renameOps (reg : List String) (i : Nat) (o : Option Operation) :
    (renameOp reg i o).1 = (renameOps reg i (optList o)).1 ∧
      optList (renameOp reg i o).2 = (renameOps reg i (optList o)).2 := by
  cases o <;> simp [renameOp, renameOps, optList]

theorem renamePathItem_as_renameOps (reg : List String) (i : Nat) (p : PathItem) :
    (renamePathItem reg i p).1 = (renameOps reg i (pathItemOps p)).1 ∧
      pathItemOps (renamePathItem reg i p).2 = (renameOps reg i (pathItemOps p)).2 := by
  unfold renamePathItem
  dsimp only
  have e1 := renameOp_as_renameOps reg i p.get
  have e2 := renameOp_as_renameOps (renameOp reg i p.get).1 i p.put
  have e3 := renameOp_as_renameOps (renameOp (renameOp reg i p.get).1 i p.put).1 i p.post
  have e4 := renameOp_as_renameOps
    (renameOp (renameOp (renameOp reg i p.get).1 i p.put).1 i p.post).1 i p.delete
  have e5 := renameOp_as_renameOps
    (renameOp (renameOp (renameOp (renameOp reg i p.get).1 i p.put).1 i p.post).1 i p.delete).1
    i p.head
  have e6 := renameOp_as_renameOps
    (renameOp (renameOp (renameOp (renameOp (renameOp reg i p.get).1 i p.put).1 i p.post).1
      i p.delete).1 i p.head).1 i p.patch
  rw [pathItemOps_eq p, pathItemOps_eq, renameOps_append, renameOps_append, renameOps_append,
    renameOps_append, renameOps_append]
  dsimp only
  rw [← e1.1, ← e1.2, ← e2.1, ← e2.2, ← e3.1, ← e3.2, ← e4.1, ← e4.2, ← e5.1, ← e5.2,
    ← e6.1, ← e6.2]
  exact ⟨rfl, rfl⟩

theorem renameOp1_eq (reg : List String) (i : Nat) (op : Operation) :
    renameOp1 reg i op =
      if reg.contains op.id = true then
        (addId reg (mixinSuffixed op.id i), { op with id := mixinSuffixed op.id i })
      else
        (addId reg op.id, op) := by
  unfold renameOp1 mixinSuffixed
  split <;> rfl

theorem renameOps_spec (U Old : List String) (i : Nat) (l : List Operation) :
    ∀ (reg done T : List String),
      (∀ x ∈ done ++ (opsIds l ++ T), x ∈ U ∧ mixinSuffixed x i ∉ U ∧ mixinSuffixed x i ∉ Old) →
      (done ++ (opsIds l ++ T)).Nodup →
      (∀ z ∈ reg, z ∈ U ∨ z ∈ Old ∨ ∃ y ∈ done, z = mixinSuffixed y i) →
      (∀ z, z ∈ (renameOps reg i l).1 ↔ z ∈ reg ∨ z ∈ opsIds (renameOps reg i l).2) ∧
      (∀ z ∈ (renameOps reg i l).1, z ∈ U ∨ z ∈ Old ∨
        ∃ y ∈ done ++ opsIds l, z = mixinSuffixed y i) ∧
      (opsIds (renameOps reg i l).2).Nodup ∧
      (∀ z ∈ opsIds (renameOps reg i l).2, z ∉ reg) := by
  induction l with
  | nil =>
    intro reg done T hfresh hnd hinv
    refine ⟨by intro z; simp [renameOps, opsIds], ?_, by simp [renameOps, opsIds],
      by simp [renameOps, opsIds]⟩
    intro z hz
    rcases hinv z (by simpa [renameOps] using hz) with h | h | ⟨y, hy, he⟩
    · exact Or.inl h
    · exact Or.inr (Or.inl h)
    · exact Or.inr (Or.inr ⟨y, by simp [hy, opsIds], he⟩)
  | cons op rest ih =>
    intro reg done T hfresh hnd hinv
    have hxs : op.id ∈ done ++ (opsIds (op :: rest) ++ T) := by
      simp [opsIds]
    obtain ⟨hxU, hxnU, hxnO⟩ := hfresh op.id hxs
    have hxnd : op.id ∉ done := by
      intro hd
      exact (List.nodup_append.mp hnd).2.2 hd (by simp [opsIds])
    have hstream : done ++ [op.id] ++ (opsIds rest ++ T)
        = done ++ (opsIds (op :: rest) ++ T) := by
      simp [opsIds]
    by_cases hc : reg.contains op.id = true
    · -- collision: the operation is renamed to mixinSuffixed op.id i
      have hx' : mixinSuffixed op.id i ∉ reg := by
        intro hz
        rcases hinv _ hz with h | h | ⟨y, hy, he⟩
        · exact hxnU h
        · exact hxnO h
        · exact hxnd (mixinSuffixed_inj he ▸ hy)
      have hfresh1 : ∀ x ∈ (done ++ [op.id]) ++ (opsIds rest ++ T),
          x ∈ U ∧ mixinSuffixed x i ∉ U ∧ mixinSuffixed x i ∉ Old := by
        intro x hx
        apply hfresh
        rw [← hstream]
        exact hx
      have hnd1 : ((done ++ [op.id]) ++ (opsIds rest ++ T)).Nodup := by
        rw [hstream]
        exact hnd
      have hinv1 : ∀ z ∈ addId reg (mixinSuffixed op.id i),
          z ∈ U ∨ z ∈ Old ∨ ∃ y ∈ done ++ [op.id], z = mixinSuffixed y i := by
        intro z hz
        rcases mem_addId.mp hz with rfl | hz'
        · exact Or.inr (Or.inr ⟨op.id, by simp, rfl⟩)
        · rcases hinv z hz' with h | h | ⟨y, hy, he⟩
          · exact Or.inl h
          · exact Or.inr (Or.inl h)
          · exact Or.inr (Or.inr ⟨y, by simp [hy], he⟩)
      obtain ⟨ia, ib, ic, idj⟩ :=
        ih (addId reg (mixinSuffixed op.id i)) (done ++ [op.id]) T hfresh1 hnd1 hinv1
      have hids : opsIds ((renameOps reg i (op :: rest)).2)
          = mixinSuffixed op.id i
            :: opsIds (renameOps (addId reg (mixinSuffixed op.id i)) i rest).2 := by
        simp only [renameOps, renameOp1_eq, if_pos hc, opsIds, List.map_cons]
      have hreg : (renameOps reg i (op :: rest)).1
          = (renameOps (addId reg (mixinSuffixed op.id i)) i rest).1 := by
        simp only [renameOps, renameOp1_eq, if_pos hc]
      refine ⟨?_, ?_, ?_, ?_⟩
      · intro z
        rw [hreg, hids, ia z, mem_addId]
        simp only [List.mem_cons]
        tauto
      · intro z hz
        rw [hreg] at hz
        rcases ib z hz with h | h | ⟨y, hy, he⟩
        · exact Or.inl h
        · exact Or.inr (Or.inl h)
        · refine Or.inr (Or.inr ⟨y, ?_, he⟩)
          revert hy
          simp only [opsIds, List.mem_append, List.mem_cons, List.mem_singleton, List.map_cons]
          tauto
      · rw [hids]
        refine List.nodup_cons.mpr ⟨?_, ic⟩
        intro hmem
        exact idj _ hmem (mem_addId.mpr (Or.inl rfl))
      · intro z hz
        rw [hids] at hz
        rcases List.mem_cons.mp hz with rfl | hz'
        · exact hx'
        · intro hzr
          exact idj z hz' (mem_addId.mpr (Or.inr hzr))
    · -- no collision: the operation keeps its id, which is registered
      have hxreg : op.id ∉ reg := fun hm => hc (contains_true_iff.mpr hm)
      have hfresh1 : ∀ x ∈ (done ++ [op.id]) ++ (opsIds rest ++ T),
          x ∈ U ∧ mixinSuffixed x i ∉ U ∧ mixinSuffixed x i ∉ Old := by
        intro x hx
        apply hfresh
        rw [← hstream]
        exact hx
      have hnd1 : ((done ++ [op.id]) ++ (opsIds rest ++ T)).Nodup := by
        rw [hstream]
        exact hnd
      have hinv1 : ∀ z ∈ addId reg op.id,
          z ∈ U ∨ z ∈ Old ∨ ∃ y ∈ done ++ [op.id], z = mixinSuffixed y i := by
        intro z hz
        rcases mem_addId.mp hz with rfl | hz'
        · exact Or.inl hxU
        · rcases hinv z hz' with h | h | ⟨y, hy, he⟩
          · exact Or.inl h
          · exact Or.inr (Or.inl h)
          · exact Or.inr (Or.inr ⟨y, by simp [hy], he⟩)
      obtain ⟨ia, ib, ic, idj⟩ := ih (addId reg op.id) (done ++ [op.id]) T hfresh1 hnd1 hinv1
      have hids : opsIds ((renameOps reg i (op :: rest)).2)
          = op.id :: opsIds (renameOps (addId reg op.id) i rest).2 := by
        simp only [renameOps, renameOp1_eq, if_neg hc, opsIds, List.map_cons]
      have hreg : (renameOps reg i (op :: rest)).1
          = (renameOps (addId reg op.id) i rest).1 := by
        simp only [renameOps, renameOp1_eq, if_neg hc]
      refine ⟨?_, ?_, ?_, ?_⟩
      · intro z
        rw [hreg, hids, ia z, mem_addId]
        simp only [List.mem_cons]
        tauto
      · intro z hz
        rw [hreg] at hz
        rcases ib z hz with h | h | ⟨y, hy, he⟩
        · exact Or.inl h
        · exact Or.inr (Or.inl h)
        · refine Or.inr (Or.inr ⟨y, ?_, he⟩)
          revert hy
          simp only [opsIds, List.mem_append, List.mem_cons, List.mem_singleton, List.map_cons]
          tauto
      · rw [hids]
        refine List.nodup_cons.mpr ⟨?_, ic⟩
        intro hmem
        exact idj _ hmem (mem_addId.mpr (Or.inl rfl))
      · intro z hz
        rw [hids] at hz
        rcases List.mem_cons.mp hz with rfl | hz'
        · exact hxreg
        · intro hzr
          exact idj z hz' (mem_addId.mpr (Or.inr hzr))

theorem pathsIds_cons (k : String) (v : PathItem) (rest : SMap PathItem) :
    pathsIds ((k, v) :: rest) = opsIds (pathItemOps v) ++ pathsIds rest := by
  simp [pathsIds, catMaps, opsIds]

theorem pathsIds_append (m m' : SMap PathItem) :
    pathsIds (m ++ m') = pathsIds m ++ pathsIds m' := by
  simp [pathsIds, catMaps_append]

theorem mergePaths_inv (U Old : List String) (i : Nat) (entries : SMap PathItem) :
    ∀ (reg : List String) (prim : SMap PathItem) (done : List String),
      (∀ x ∈ done ++ pathsIds entries,
        x ∈ U ∧ mixinSuffixed x i ∉ U ∧ mixinSuffixed x i ∉ Old) →
      (done ++ pathsIds entries).Nodup →
      (∀ z, z ∈ reg ↔ z ∈ pathsIds prim) →
      (pathsIds prim).Nodup →
      (∀ z ∈ reg, z ∈ U ∨ z ∈ Old ∨ ∃ y ∈ done, z = mixinSuffixed y i) →
      (∀ z, z ∈ (mergePaths reg prim i entries).1 ↔
        z ∈ pathsIds (mergePaths reg prim i entries).2.1) ∧
      (pathsIds (mergePaths reg prim i entries).2.1).Nodup ∧
      (∀ z ∈ (mergePaths reg prim i entries).1, z ∈ U ∨ z ∈ Old ∨
        ∃ y ∈ done ++ pathsIds entries, z = mixinSuffixed y i) := by
  induction entries with
  | nil =>
    intro reg prim done hf hnd ha hb hcv
    refine ⟨ha, hb, fun z hz => ?_⟩
    rcases hcv z hz with h | h | ⟨y, hy, he⟩
    · exact Or.inl h
    · exact Or.inr (Or.inl h)
    · exact Or.inr (Or.inr ⟨y, List.mem_append.mpr (Or.inl hy), he⟩)
  | cons kv rest ihe =>
    intro reg prim done hf hnd ha hb hcv
    obtain ⟨k, v⟩ := kv
    have hstream : (done ++ opsIds (pathItemOps v)) ++ pathsIds rest
        = done ++ pathsIds ((k, v) :: rest) := by
      rw [pathsIds_cons, List.append_assoc]
    unfold mergePaths
    by_cases hck : containsS prim k = true
    · rw [if_pos hck]
      dsimp only
      have hf' : ∀ x ∈ (done ++ opsIds (pathItemOps v)) ++ pathsIds rest,
          x ∈ U ∧ mixinSuffixed x i ∉ U ∧ mixinSuffixed x i ∉ Old := by
        intro x hx
        exact hf x (hstream ▸ hx)
      have hnd' : ((done ++ opsIds (pathItemOps v)) ++ pathsIds rest).Nodup := by
        rw [hstream]
        exact hnd
      have hcv' : ∀ z ∈ reg, z ∈ U ∨ z ∈ Old ∨
          ∃ y ∈ done ++ opsIds (pathItemOps v), z = mixinSuffixed y i := by
        intro z hz
        rcases hcv z hz with h | h | ⟨y, hy, he⟩
        · exact Or.inl h
        · exact Or.inr (Or.inl h)
        · exact Or.inr (Or.inr ⟨y, List.mem_append.mpr (Or.inl hy), he⟩)
      obtain ⟨ja, jb, jc⟩ := ihe reg prim (done ++ opsIds (pathItemOps v)) hf' hnd' ha hb hcv'
      refine ⟨ja, jb, fun z hz => ?_⟩
      rcases jc z hz with h | h | ⟨y, hy, he⟩
      · exact Or.inl h
      · exact Or.inr (Or.inl h)
      · exact Or.inr (Or.inr ⟨y, hstream ▸ (List.append_assoc .. ▸ hy), he⟩)
    · rw [if_neg hck]
      dsimp only
      have e := renamePathItem_as_renameOps reg i v
      have hf2 : ∀ x ∈ done ++ (opsIds (pathItemOps v) ++ pathsIds rest),
          x ∈ U ∧ mixinSuffixed x i ∉ U ∧ mixinSuffixed x i ∉ Old := by
        intro x hx
        apply hf
        rw [← pathsIds_cons k v rest] at hx
        exact hx
      have hnd2 : (done ++ (opsIds (pathItemOps v) ++ pathsIds rest)).Nodup := by
        rw [← pathsIds_cons k v rest]
        exact hnd
      obtain ⟨sa, sb, sc, sd⟩ :=
        renameOps_spec U Old i (pathItemOps v) reg done (pathsIds rest) hf2 hnd2 hcv
      have hprim' : pathsIds (prim ++ [(k, (renamePathItem reg i v).2)])
          = pathsIds prim ++ opsIds ((renameOps reg i (pathItemOps v)).2) := by
        rw [pathsIds_append, pathsIds_cons]
        rw [show pathsIds ([] : SMap PathItem) = [] from rfl, List.append_nil]
        rw [congrArg opsIds e.2]
      have ha' : ∀ z, z ∈ (renamePathItem reg i v).1 ↔
          z ∈ pathsIds (prim ++ [(k, (renamePathItem reg i v).2)]) := by
        intro z
        rw [e.1, hprim', sa z, List.mem_append, ha z]
      have hb' : (pathsIds (prim ++ [(k, (renamePathItem reg i v).2)])).Nodup := by
        rw [hprim']
        refine List.nodup_append.mpr ⟨hb, sc, ?_⟩
        intro z hz hz'
        exact sd z hz' ((ha z).mpr hz)
      have hcv2 : ∀ z ∈ (renamePathItem reg i v).1, z ∈ U ∨ z ∈ Old ∨
          ∃ y ∈ done ++ opsIds (pathItemOps v), z = mixinSuffixed y i := by
        intro z hz
        rw [e.1] at hz
        exact sb z hz
      have hf' : ∀ x ∈ (done ++ opsIds (pathItemOps v)) ++ pathsIds rest,
          x ∈ U ∧ mixinSuffixed x i ∉ U ∧ mixinSuffixed x i ∉ Old := by
        intro x hx
        exact hf x (hstream ▸ hx)
      have hnd' : ((done ++ opsIds (pathItemOps v)) ++ pathsIds rest).Nodup := by
        rw [hstream]
        exact hnd
      obtain ⟨ja, jb, jc⟩ := ihe (renamePathItem reg i v).1
        (prim ++ [(k, (renamePathItem reg i v).2)]) (done ++ opsIds (pathItemOps v))
        hf' hnd' ha' hb' hcv2
      refine ⟨ja, jb, fun z hz => ?_⟩
      rcases jc z hz with h | h | ⟨y, hy, he⟩
      · exact Or.inl h
      · exact Or.inr (Or.inl h)
      · exact Or.inr (Or.inr ⟨y, hstream ▸ (List.append_assoc .. ▸ hy), he⟩)

theorem mixinLoop_nodupIds {δ π : Type} (U : List String) (rest : List (Swagger δ π)) :
    ∀ (i0 : Nat) (reg : List String) (P : Swagger δ π) (Old : List String),
      (∀ (d : Nat) (m : Swagger δ π), rest[d]? = some m → ∀ x ∈ scannedOpIds m,
        x ∈ U ∧ mixinSuffixed x (i0 + d) ∉ U ∧ mixinSuffixed x (i0 + d) ∉ Old ∧
        (∀ (d' : Nat) (m' : Swagger δ π) (y : String), rest[d']? = some m' →
          y ∈ scannedOpIds m' →
          mixinSuffixed x (i0 + d) = mixinSuffixed y (i0 + d') → d = d')) →
      (∀ m ∈ rest, (scannedOpIds m).Nodup) →
      (∀ z, z ∈ reg ↔ z ∈ pathsIds P.paths) →
      (pathsIds P.paths).Nodup →
      (∀ z ∈ reg, z ∈ U ∨ z ∈ Old) →
      (pathsIds (mixinLoop i0 reg P rest).1.paths).Nodup := by
  induction rest with
  | nil =>
    intro i0 reg P Old _ _ _ hb _
    exact hb
  | cons m ms ih =>
    intro i0 reg P Old hA hB ha hb hc
    have hA0 := hA 0 m (by simp)
    have hf : ∀ x ∈ ([] : List String) ++ pathsIds m.paths,
        x ∈ U ∧ mixinSuffixed x i0 ∉ U ∧ mixinSuffixed x i0 ∉ Old := by
      intro x hx
      have hx' : x ∈ scannedOpIds m := by simpa using hx
      obtain ⟨g1, g2, g3, _⟩ := hA0 x hx'
      rw [Nat.add_zero] at g2 g3
      exact ⟨g1, g2, g3⟩
    have hnd0 : (([] : List String) ++ pathsIds m.paths).Nodup := by
      simpa using hB m (List.mem_cons_self m ms)
    have hc0 : ∀ z ∈ reg, z ∈ U ∨ z ∈ Old ∨
        ∃ y ∈ ([] : List String), z = mixinSuffixed y i0 := by
      intro z hz
      rcases hc z hz with h | h
      · exact Or.inl h
      · exact Or.inr (Or.inl h)
    obtain ⟨ja, jb, jc⟩ := mergePaths_inv U Old i0 m.paths reg P.paths [] hf hnd0 ha hb hc0
    have hc' : ∀ z ∈ (mergePaths reg P.paths i0 m.paths).1,
        z ∈ U ∨ z ∈ Old ++ (pathsIds m.paths).map (fun y => mixinSuffixed y i0) := by
      intro z hz
      rcases jc z hz with h | h | ⟨y, hy, he⟩
      · exact Or.inl h
      · exact Or.inr (List.mem_append.mpr (Or.inl h))
      · exact Or.inr (List.mem_append.mpr (Or.inr
          (List.mem_map.mpr ⟨y, by simpa using hy, he.symm⟩)))
    have hA' : ∀ (d : Nat) (m' : Swagger δ π), ms[d]? = some m' → ∀ x ∈ scannedOpIds m',
        x ∈ U ∧ mixinSuffixed x ((i0 + 1) + d) ∉ U ∧
        mixinSuffixed x ((i0 + 1) + d) ∉
          Old ++ (pathsIds m.paths).map (fun y => mixinSuffixed y i0) ∧
        (∀ (d' : Nat) (m'' : Swagger δ π) (y : String), ms[d']? = some m'' →
          y ∈ scannedOpIds m'' →
          mixinSuffixed x ((i0 + 1) + d) = mixinSuffixed y ((i0 + 1) + d') → d = d') := by
      intro d m' hd x hx
      have hd1 : (m :: ms)[d + 1]? = some m' := by simpa using hd
      obtain ⟨g1, g2, g3, g4⟩ := hA (d + 1) m' hd1 x hx
      have hidx : i0 + (d + 1) = (i0 + 1) + d := by omega
      rw [hidx] at g2 g3
      refine ⟨g1, g2, ?_, ?_⟩
      · intro hmem
        rcases List.mem_append.mp hmem with hO | hNew
        · exact g3 hO
        · obtain ⟨y, hy, he⟩ := List.mem_map.mp hNew
          have hy' : y ∈ scannedOpIds m := by simpa using hy
          have h40 := g4 0 m y (by simp) hy'
            (by rw [hidx, Nat.add_zero]; exact he.symm)
          omega
      · intro d' m'' y hd' hy he
        have hd'1 : (m :: ms)[d' + 1]? = some m'' := by simpa using hd'
        have hidx' : i0 + (d' + 1) = (i0 + 1) + d' := by omega
        have h4 := g4 (d' + 1) m'' y hd'1 hy (by rw [hidx, hidx']; exact he)
        omega
    have hB' : ∀ m' ∈ ms, (scannedOpIds m').Nodup :=
      fun m' hm' => hB m' (List.mem_cons_of_mem m hm')
    simp only [mixinLoop]
    exact ih (i0 + 1) (mergePaths reg P.paths i0 m.paths).1
      { definitions := (mergeEntries P.definitions m.definitions).1,
        paths := (mergePaths reg P.paths i0 m.paths).2.1,
        parameters := (mergeEntries P.parameters m.parameters).1,
        responses := (mergeEntries P.responses m.responses).1 }
      (Old ++ (pathsIds m.paths).map (fun y => mixinSuffixed y i0))
      hA' hB' ja jb hc'

/-! ### Claim C3 -/

/-- Claim C3 is false on the code: a renamed identifier can collide with
a pre-existing one without detection.  With primary operations getA and
getAMixin0 and a mixin operation getA, the mixin's getA is renamed to
getAMixin0, which duplicates the primary's: non-empty identifiers are not
unique after Mixin. -/
theorem c3_uniqueness_cex :
    ¬ ((scannedOpIds (Mixin exP3 [exM3]).1).filter (fun x => x != "")).Nodup ∧
      scannedOpIds (Mixin exP3 [exM3]).1 = ["getA", "getAMixin0", "getAMixin0"] := by
  decide

/-- Claim C3 amended: a colliding identifier is always renamed by
appending "Mixin" and the zero-based mixin index and then registered
(first conjunct, the disambiguation rule).  Uniqueness of the merged
identifiers additionally requires that renaming never recreates an
existing name: when the scanned identifiers of the primary and of each
mixin are duplicate-free, no suffixed form of a mixin identifier occurs
among the original identifiers, and suffixed forms built from different
mixin indices never coincide, all scanned operation identifiers of the
merged primary (the six methods, OPTIONS excluded as in the collection
scan) are unique. -/
theorem c3_uniqueness_amended {δ π : Type} (P : Swagger δ π) (ms : List (Swagger δ π))
    (h1 : (scannedOpIds P).Nodup)
    (h2 : ∀ m ∈ ms, (scannedOpIds m).Nodup)
    (h3 : ∀ (d : Nat) (m : Swagger δ π) (x : String), ms[d]? = some m →
      x ∈ scannedOpIds m →
      mixinSuffixed x d ∉ scannedOpIds P ++ catMaps (fun m => scannedOpIds m) ms)
    (h4 : ∀ (d d' : Nat) (m m' : Swagger δ π) (x y : String), ms[d]? = some m →
      x ∈ scannedOpIds m → ms[d']? = some m' → y ∈ scannedOpIds m' →
      mixinSuffixed x d = mixinSuffixed y d' → d = d') :
    (scannedOpIds (Mixin P ms).1).Nodup ∧
    (∀ (reg : List String) (j : Nat) (op : Operation),
      (reg.contains op.id = false → renameOp1 reg j op = (addId reg op.id, op)) ∧
      (reg.contains op.id = true → renameOp1 reg j op =
        (addId reg (mixinSuffixed op.id j), { op with id := mixinSuffixed op.id j }))) := by
  constructor
  · have main := mixinLoop_nodupIds
      (scannedOpIds P ++ catMaps (fun m => scannedOpIds m) ms) ms 0 (getOpIds P) P []
    apply main
    · intro d m hd x hx
      have hmem : m ∈ ms := List.getElem?_mem hd
      refine ⟨?_, ?_, ?_, ?_⟩
      · exact List.mem_append.mpr (Or.inr ((mem_catMaps _ _ _).mpr ⟨m, hmem, hx⟩))
      · rw [Nat.zero_add]
        exact h3 d m x hd hx
      · rw [Nat.zero_add]
        simp
      · intro d' m' y hd' hy he
        rw [Nat.zero_add, Nat.zero_add] at he
        exact h4 d d' m m' x y hd hx hd' hy he
    · exact h2
    · exact fun z => mem_getOpIds_iff P z
    · exact h1
    · intro z hz
      exact Or.inl (List.mem_append.mpr (Or.inl ((mem_getOpIds_iff P z).mp hz)))
  · intro reg j op
    constructor
    · intro hcf
      rw [renameOp1_eq, hcf]
      simp
    · intro hct
      rw [renameOp1_eq, hct]
      simp

/-- Witness for the amended C3: primary getA, mixin getA; the rename to
getAMixin0 is fresh, so the merged identifiers are unique. -/
theorem c3_uniqueness_amended_witness :
    (scannedOpIds (Mixin exP4 [exM3]).1).Nodup := by
  have hm3 : scannedOpIds exM3 = ["getA"] := by decide
  refine (c3_uniqueness_amended exP4 [exM3] (by decide) ?_ ?_ ?_).1
  · intro m hm
    have hme : m = exM3 := List.mem_singleton.mp hm
    subst hme
    decide
  · intro d m x hd hx
    match d, hd with
    | 0, hd =>
      have hme : m = exM3 := by
        have h := hd
        simp at h
        exact h.symm
      subst hme
      rw [hm3] at hx
      have hxe : x = "getA" := List.mem_singleton.mp hx
      subst hxe
      decide
    | d + 1, hd => simp at hd
  · intro d d' m m' x y hd hx hd' hy _
    match d, hd, d', hd' with
    | 0, _, 0, _ => rfl
    | 0, _, d' + 1, hd' => simp at hd'
    | d + 1, hd, _, _ => simp at hd
